import Mathlib

/-!
# blurlconvert: box scanner, sidx parser, index-path ranges, representation
selection, URL path normalisation, template-path segment count and assembly,
retry policy and base-62 merge key

A shallow embedding of the pure parts of `mpd.go` and `main.go`.

* Byte buffers are lists of `Fin 256`.
* Go's `int` / `int64` are modelled as `Int` with an explicit 64-bit
  two's-complement wrap (`wrapInt64`) wherever the source adds or converts.
* A Go slice expression `b[lo:hi]` is modelled strictly: it fails unless
  `0 ≤ lo ≤ hi ≤ len(b)`; a failure is a run-time panic. Go itself accepts
  `hi` up to the capacity; taking the length as the bound makes every read
  past the end of the data a panic, so "no panic" below implies "no read
  outside the buffer". The panics exhibited below have a negative bound,
  which Go rejects whatever the capacity.
* Functions that return `(value, error)` return a `Result`, which also
  records a panic and, for a loop run on fuel, exhaustion of the fuel.
* The network, the file system and the scheduler are explicit parameters: the
  outcome of each request or attempt, and the order in which the worker
  goroutines take effect. Sleeping is recorded as the list of durations
  passed to `time.Sleep`.
* The `downloads` directory is a map from file names to files. The track file
  of the template path is one of its entries, so that a worker or the assembly
  loop can remove, truncate or rename it like any other file.
* Go's `float64` is IEEE 754 binary64: a finite value is a rational number with
  a sign, and every operation rounds its exact result to the nearest
  representable value, ties to even.
-/

namespace Blurl

/-! ## Machine integers and byte buffers -/

/-- A byte. -/
abbrev Byte := Fin 256

/-- Outcome of a Go function returning `(*T, error)`: a value, a returned error, a
run-time panic (slice bounds out of range), or a loop that did not finish within the fuel. -/
inductive Result (α : Type) where
  | ok (v : α)
  | error (msg : String)
  | panic
  | outOfFuel
deriving DecidableEq

/-- Two's-complement reduction of a mathematical integer to the range of a signed 64-bit
integer (Go `int` on 64-bit targets, `int64`). -/
def wrapInt64 (x : Int) : Int := (x + 2 ^ 63) % 2 ^ 64 - 2 ^ 63

/-- Go conversion `int(v)` / `int64(v)` of an unsigned 64-bit value. -/
def uint64ToInt (v : Nat) : Int := wrapInt64 (v : Int)

/-- Big-endian value of a byte string (`binary.BigEndian.Uint16/32/64` on a slice of exactly
2, 4 or 8 bytes). -/
def beUint (bs : List Byte) : Nat := bs.foldl (fun acc b => acc * 256 + b.val) 0

/-- Go slice expression `b[lo:hi]`; `none` is the run-time panic. -/
def slice (b : List Byte) (lo hi : Int) : Option (List Byte) :=
  if 0 ≤ lo ∧ lo ≤ hi ∧ hi ≤ (b.length : Int) then
    some ((b.drop lo.toNat).take (hi.toNat - lo.toNat))
  else none

/-- Go index expression `b[i]`; `none` is the run-time panic. -/
def index (b : List Byte) (i : Int) : Option Byte :=
  if 0 ≤ i ∧ i < (b.length : Int) then b.get? i.toNat else none

/-- The bytes of the Go string `"sidx"`. -/
def sidxTag : List Byte := [0x73, 0x69, 0x64, 0x78]

/-! ## `sidxInfo`, `parseSidxBox`, `findAndParseSidx` (mpd.go) -/

/-- Go `sidxInfo`: `uint64` first offset, `uint32` sizes, `uint64` box size, `int64` offset. -/
structure sidxInfo where
  firstOffset : Nat
  referencedSizes : List Nat
  sidxBoxSize : Nat
  sidxBoxOffsetInBuf : Int
deriving DecidableEq

/-- The reference loop of `parseSidxBox`: `n` iterations remain, `pos` is the read position and
`sizes` the slice built so far. -/
def parseSidxRefs (box : List Byte) : Nat → Nat → List Nat → Result (List Nat)
  | 0, _, sizes => .ok sizes
  | n + 1, pos, sizes =>
    if pos + 12 > box.length then .error "invalid sidx refs"
    else
      match slice box pos (pos + 4) with
      | none => .panic
      | some s =>
        let ref := beUint s
        let size := ref &&& 0x7FFFFFFF
        parseSidxRefs box n (pos + 4 + 8) (sizes ++ [size])

/-- Tail of `parseSidxBox` from the reserved / reference-count fields on. -/
def parseSidxTail (box : List Byte) (off : Int) (boxSize : Nat) (firstOffset : Nat)
    (pos : Nat) : Result sidxInfo :=
  if pos + 4 > box.length then .error "invalid sidx"
  else
    let pos := pos + 2
    match slice box pos (pos + 2) with
    | none => .panic
    | some rc =>
      let refCount := beUint rc
      let pos := pos + 2
      match parseSidxRefs box refCount pos [] with
      | .ok sizes =>
        .ok { firstOffset := firstOffset, referencedSizes := sizes,
              sidxBoxSize := boxSize, sidxBoxOffsetInBuf := off }
      | .error msg => .error msg
      | .panic => .panic
      | .outOfFuel => .outOfFuel

/-- Embedding of `parseSidxBox(box, off, boxSize)`. Positions stay below `len(box) + 16`, so
they are natural numbers and cannot overflow. -/
def parseSidxBox (box : List Byte) (off : Int) (boxSize : Nat) : Result sidxInfo :=
  match slice box 0 4 with
  | none => .panic
  | some sz =>
    let pos := if beUint sz = 1 then 16 else 8
    if pos + 4 > box.length then .error "invalid sidx"
    else
      match index box pos with
      | none => .panic
      | some version =>
        let pos := pos + 4
        if pos + 8 > box.length then .error "invalid sidx"
        else
          let pos := pos + 4
          match slice box pos (pos + 4) with
          | none => .panic
          | some _timescale =>
            let pos := pos + 4
            if version.val = 0 then
              if pos + 8 > box.length then .error "invalid sidx v0"
              else
                match slice box pos (pos + 4) with
                | none => .panic
                | some _earliest =>
                  let pos := pos + 4
                  match slice box pos (pos + 4) with
                  | none => .panic
                  | some fo => parseSidxTail box off boxSize (beUint fo) (pos + 4)
            else
              if pos + 16 > box.length then .error "invalid sidx v1"
              else
                match slice box pos (pos + 8) with
                | none => .panic
                | some _earliest =>
                  let pos := pos + 8
                  match slice box pos (pos + 8) with
                  | none => .panic
                  | some fo => parseSidxTail box off boxSize (beUint fo) (pos + 8)

/-- The scanning loop of `findAndParseSidx`, one unit of fuel per evaluation of the loop
condition; `i` is the Go `int` loop variable. -/
def findAndParseSidxLoop (buf : List Byte) : Nat → Int → Result sidxInfo
  | 0, _ => .outOfFuel
  | fuel + 1, i =>
    if ¬ (wrapInt64 (i + 8) ≤ (buf.length : Int)) then .error "sidx not found"
    else
      match slice buf i (wrapInt64 (i + 4)) with
      | none => .panic
      | some sz =>
        match slice buf (wrapInt64 (i + 4)) (wrapInt64 (i + 8)) with
        | none => .panic
        | some typ =>
          let size := beUint sz
          let checked : Result (Nat × Nat) :=
            if size = 1 then
              if wrapInt64 (i + 16) > (buf.length : Int) then .error "invalid large size box"
              else
                match slice buf (wrapInt64 (i + 8)) (wrapInt64 (i + 16)) with
                | none => .panic
                | some ls => .ok (beUint ls, 16)
            else .ok (size, 8)
          match checked with
          | .error msg => .error msg
          | .panic => .panic
          | .outOfFuel => .outOfFuel
          | .ok (boxSize, hdr) =>
            if boxSize < hdr ∨ wrapInt64 (i + uint64ToInt boxSize) > (buf.length : Int) then
              .error "invalid box size"
            else if typ = sidxTag then
              match slice buf i (wrapInt64 (i + uint64ToInt boxSize)) with
              | none => .panic
              | some box => parseSidxBox box i boxSize
            else findAndParseSidxLoop buf fuel (wrapInt64 (i + uint64ToInt boxSize))

/-- Embedding of `findAndParseSidx(buf)`. A run that terminates never returns to an offset it
has already visited, so `len(buf) + 1` evaluations of the loop condition are enough. -/
def findAndParseSidx (buf : List Byte) : Result sidxInfo :=
  findAndParseSidxLoop buf (buf.length + 1) 0

/-! ## Box fields read directly from the bytes (specification side) -/

/-- Big-endian value of the `width` bytes of `box` at offset `off` (bytes past the end are
absent). -/
def fieldBE (box : List Byte) (off width : Nat) : Nat := beUint ((box.drop off).take width)

/-- Header length of the box starting at offset `i`: 16 when the 32-bit size field is 1. -/
def hdrLenAt (buf : List Byte) (i : Nat) : Nat := if fieldBE buf i 4 = 1 then 16 else 8

/-- Declared size of the box starting at offset `i`: the 64-bit large size when the 32-bit size
field is 1, the 32-bit size otherwise. -/
def declaredAt (buf : List Byte) (i : Nat) : Nat :=
  if fieldBE buf i 4 = 1 then fieldBE buf (i + 8) 8 else fieldBE buf i 4

/-- The four type bytes of the box starting at offset `i`. -/
def typeAt (buf : List Byte) (i : Nat) : List Byte := (buf.drop (i + 4)).take 4

/-- Declared size of a box given by its own bytes. -/
def boxDeclaredSize (box : List Byte) : Nat := declaredAt box 0

/-- Type tag of a box given by its own bytes. -/
def boxType (box : List Byte) : List Byte := typeAt box 0

/-- A box whose declared size is at least its header length and equals its actual length. -/
def WellFormedBox (box : List Byte) : Prop :=
  hdrLenAt box 0 ≤ box.length ∧ declaredAt box 0 = box.length

instance (box : List Byte) : Decidable (WellFormedBox box) := by
  unfold WellFormedBox; infer_instance

/-- Concatenation of a sequence of boxes. -/
def concatBoxes : List (List Byte) → List Byte
  | [] => []
  | b :: bs => b ++ concatBoxes bs

/-- Header length of a sidx box (8, or 16 with a large size). -/
def sidxHdr (box : List Byte) : Nat := hdrLenAt box 0

/-- Version byte of a sidx box, at the end of the header (0 when cut off). -/
def sidxVersion (box : List Byte) : Nat := (box.getD (sidxHdr box) 0).val

/-- Combined width of the earliest-presentation-time and first-offset fields. -/
def sidxVarLen (box : List Byte) : Nat := if sidxVersion box = 0 then 8 else 16

/-- The 16-bit reference count field of a sidx box. -/
def sidxRefCount (box : List Byte) : Nat :=
  fieldBE box (sidxHdr box + 12 + sidxVarLen box + 2) 2

/-- Length of a complete sidx box: header, version/flags, reference ID, timescale, the two
time/offset fields, reserved and reference count, and 12 bytes per reference. -/
def sidxNeeded (box : List Byte) : Nat :=
  sidxHdr box + 12 + sidxVarLen box + 4 + 12 * sidxRefCount box

/-- The first-offset field: 32 bits at header+16 for version 0, 64 bits at header+20 otherwise. -/
def sidxFirstOffset (box : List Byte) : Nat :=
  if sidxVersion box = 0 then fieldBE box (sidxHdr box + 16) 4
  else fieldBE box (sidxHdr box + 20) 8

/-- Low 31 bits of the first 4-byte field of the `j`-th reference entry. -/
def sidxRefSize (box : List Byte) (j : Nat) : Nat :=
  fieldBE box (sidxHdr box + 12 + sidxVarLen box + 4 + 12 * j) 4 % 2 ^ 31

/-- A 16-byte buffer holding a `sidx` header with 32-bit size 1 and large size `2^64-1`. -/
def badLargeSidx : List Byte :=
  [0, 0, 0, 1, 0x73, 0x69, 0x64, 0x78, 255, 255, 255, 255, 255, 255, 255, 255]

/-- A complete version-0 sidx box of 44 bytes: first offset 7, one reference whose first field
is `0x800003E8` (type bit set, size 1000). -/
def v0Sidx : List Byte :=
  [0, 0, 0, 44, 0x73, 0x69, 0x64, 0x78,  0, 0, 0, 0,  0, 0, 0, 1,  0, 0, 3, 232,
   0, 0, 0, 0,  0, 0, 0, 7,  0, 0, 0, 1,
   128, 0, 3, 232,  0, 0, 0, 0,  0, 0, 0, 0]

/-- A 16-byte `free` box followed by a `free` header with 32-bit size 1 and large size
`2^64-16`. -/
def loopingBuf : List Byte :=
  [0, 0, 0, 16, 0x66, 0x72, 0x65, 0x65, 0, 0, 0, 0, 0, 0, 0, 0,
   0, 0, 0, 1, 0x66, 0x72, 0x65, 0x65, 255, 255, 255, 255, 255, 255, 255, 240]

/-- A 12-byte `free` box. -/
def freeBox : List Byte := [0, 0, 0, 12, 0x66, 0x72, 0x65, 0x65, 1, 2, 3, 4]

/-! ## Index path of `HandleDownloadTrack` (mpd.go) -/

/-- Outcomes of the network and the local file system seen by the index-path loop: the result
of the `k`-th `httpRangeGet` (`none` is an error) and whether the `k`-th `io.Copy` succeeds. -/
structure IndexEnv where
  httpRangeGet : Nat → Int → Int → Option (List Byte)
  copyOk : Nat → Bool

/-- Observable state of the loop: the byte ranges requested so far, in order, and the
contents of the track file. -/
structure TrackState where
  requests : List (Int × Int)
  file : List Byte
deriving DecidableEq

/-- The loop `for i := 0; i < len(sidx.referencedSizes); i++` of `HandleDownloadTrack`, over the
sizes not yet visited. Returns the final state and whether the function went on (`true`) or
returned an error from inside the loop (`false`); what a failed append leaves in the file is
not modelled. A `uint32` converts to `int64` unchanged. -/
def indexSegmentLoop (env : IndexEnv) : List Nat → Int → TrackState → TrackState × Bool
  | [], _, st => (st, true)
  | s :: rest, segStart, st =>
    let sz : Int := (s : Int)
    if sz ≤ 0 then (st, true)
    else
      let segEnd := wrapInt64 (wrapInt64 (segStart + sz) - 1)
      let k := st.requests.length
      let st1 : TrackState := { st with requests := st.requests ++ [(segStart, segEnd)] }
      match env.httpRangeGet k segStart segEnd with
      | none => (st1, false)
      | some b =>
        if env.copyOk k then
          indexSegmentLoop env rest (wrapInt64 (segEnd + 1)) { st1 with file := st1.file ++ b }
        else (st1, false)

/-- The statement `segStart := sidxStart + int64(sidx.sidxBoxSize) + int64(sidx.firstOffset)`. -/
def indexPathSegStart (sidxStart : Int) (sidx : sidxInfo) : Int :=
  wrapInt64 (wrapInt64 (sidxStart + uint64ToInt sidx.sidxBoxSize) + uint64ToInt sidx.firstOffset)

/-- Byte ranges requested by the index-path loop for a parsed index, starting from a track file
holding the init segment. -/
def indexPathRequests (env : IndexEnv) (sidx : sidxInfo) (sidxStart : Int)
    (initBytes : List Byte) : List (Int × Int) :=
  (indexSegmentLoop env sidx.referencedSizes (indexPathSegStart sidxStart sidx)
    { requests := [], file := initBytes }).1.requests

/-- Sum of the first `i` reference sizes. -/
def cumSize (sizes : List Nat) (i : Nat) : Int := (((sizes.take i).sum : Nat) : Int)

/-- An environment in which every range request and every append succeeds. -/
def IndexEnv.AllSucceed (env : IndexEnv) : Prop :=
  (∀ k a b, (env.httpRangeGet k a b).isSome) ∧ (∀ k, env.copyOk k = true)

/-- The environment in which every request returns no bytes and every append succeeds. -/
def okEnv : IndexEnv := { httpRangeGet := fun _ _ _ => some [], copyOk := fun _ => true }

/-- Parsed index with sizes 1000, 2000, 1500 and first offset 0. -/
def sampleSidx : sidxInfo :=
  { firstOffset := 0, referencedSizes := [1000, 2000, 1500], sidxBoxSize := 44,
    sidxBoxOffsetInBuf := 0 }

/-- Parsed index with a zero size at position 2. -/
def gapSidx : sidxInfo :=
  { firstOffset := 8, referencedSizes := [10, 20, 0, 30], sidxBoxSize := 44,
    sidxBoxOffsetInBuf := 0 }

/-! ## `strconv.ParseInt(s, 10, 64)` and the representation-selection loop (main.go) -/

/-- The two errors of `strconv`: `ErrSyntax` (here `malformed`) and `ErrRange` (here
`outOfRange`). -/
inductive NumError where
  | malformed
  | outOfRange
deriving DecidableEq

/-- The digit loop of `strconv.ParseUint` for base 10 and bit size 64: the accumulated value
and the error. A character other than a decimal digit is a syntax error (a letter is a digit
value ≥ 10, rejected for base 10); an overflow returns `2^64-1` at once. -/
def ParseUintLoop : List Char → Nat → Nat × Option NumError
  | [], n => (n, none)
  | c :: cs, n =>
    if '0' ≤ c ∧ c ≤ '9' then
      let d := c.toNat - '0'.toNat
      if n ≥ (2 ^ 64 - 1) / 10 + 1 then (2 ^ 64 - 1, some .outOfRange)
      else
        let n := n * 10
        let n1 := (n + d) % 2 ^ 64
        if n1 < n ∨ n1 > 2 ^ 64 - 1 then (2 ^ 64 - 1, some .outOfRange)
        else ParseUintLoop cs n1
    else (0, some .malformed)

/-- Go `strconv.ParseUint(s, 10, 64)` on the characters of `s`. -/
def ParseUint (s : List Char) : Nat × Option NumError :=
  if s = [] then (0, some .malformed) else ParseUintLoop s 0

/-- Go `strconv.ParseInt(s, 10, 64)`: the returned value and the error (`none` is `nil`). -/
def ParseInt (s : String) : Int × Option NumError :=
  match s.toList with
  | [] => (0, some .malformed)
  | c :: cs =>
    let neg : Bool := c = '-'
    let body := if c = '+' ∨ c = '-' then cs else c :: cs
    match ParseUint body with
    | (_, some .malformed) => (0, some .malformed)
    | (un, _) =>
      if neg = false ∧ un ≥ 2 ^ 63 then (2 ^ 63 - 1, some .outOfRange)
      else if neg = true ∧ un > 2 ^ 63 then (-2 ^ 63, some .outOfRange)
      else
        let n := uint64ToInt un
        (if neg then wrapInt64 (-n) else n, none)

/-- The loop `for i, r := range Representation` of `main`, over the bandwidth attributes not yet
visited; `i` is the index of the next one. Returns `(bestRepIndex, bestBw)`. -/
def selectLoop : List String → Nat → Nat → Int → Nat × Int
  | [], _, bestRepIndex, bestBw => (bestRepIndex, bestBw)
  | r :: rs, i, bestRepIndex, bestBw =>
    let bw := (ParseInt r).1
    if bw > bestBw then selectLoop rs (i + 1) i bw
    else selectLoop rs (i + 1) bestRepIndex bestBw

/-- Representation selection of `main`: `bestRepIndex := 0; bestBw := int64(-1)` followed by the
loop, on the list of `Bandwidth` attributes. -/
def selectBest (bandwidths : List String) : Nat := (selectLoop bandwidths 0 0 (-1)).1

/-- Value the loop reads for the representation at position `j`. -/
def bandwidthAt (bandwidths : List String) (j : Nat) : Int := (ParseInt (bandwidths.getD j "")).1

/-- The index `i` is in range, attains the maximum bandwidth, and is the lowest such index. -/
def IsLowestMax (bandwidths : List String) (i : Nat) : Prop :=
  i < bandwidths.length ∧ (∀ j, j < bandwidths.length → bandwidthAt bandwidths j ≤ bandwidthAt bandwidths i)
    ∧ (∀ j, j < i → bandwidthAt bandwidths j < bandwidthAt bandwidths i)

/-! ## `RemoveDuplicateUUIDPath` (mpd.go) -/

/-- Go `map[string]bool`. -/
abbrev SeenMap := String → Option Bool

/-- Go map assignment `m[k] = v`. -/
def SeenMap.set (m : SeenMap) (k : String) (v : Bool) : SeenMap :=
  fun x => if x = k then some v else m x

/-- The loop `for _, segment := range segments` of `RemoveDuplicateUUIDPath`. -/
def filterLoop : List String → SeenMap → List String → List String
  | [], _, filteredSegments => filteredSegments
  | segment :: rest, seenUUIDs, filteredSegments =>
    if (seenUUIDs segment).isNone ∧ segment ≠ "" then
      filterLoop rest (seenUUIDs.set segment true) (filteredSegments ++ [segment])
    else if segment = "" ∨ ((seenUUIDs segment).getD false) = false then
      filterLoop rest seenUUIDs (filteredSegments ++ [segment])
    else filterLoop rest seenUUIDs filteredSegments

/-- Segment list computed by `RemoveDuplicateUUIDPath` from `strings.Split(u.Path, "/")`. -/
def filterSegments (segments : List String) : List String :=
  filterLoop segments (fun _ => none) []

/-- Specification of the normaliser in the words of the design: keep the segment at position
`i` exactly when it is empty or does not occur at an earlier position. -/
def keepFirstOccurrences (segments : List String) : List String :=
  (List.range segments.length).filterMap (fun i =>
    let s := segments.getD i ""
    if s = "" ∨ s ∉ segments.take i then some s else none)

/-- Recursive form of the normaliser used in the proofs: `done` holds the segments already
visited. -/
def keepRec : List String → List String → List String
  | _, [] => []
  | done, x :: xs =>
    if x = "" ∨ x ∉ done then x :: keepRec (x :: done) xs else keepRec (x :: done) xs

/-- The map built by the loop after visiting `done`: the non-empty visited segments map to
`true`, nothing else is present. -/
def SeenInv (m : SeenMap) (done : List String) : Prop :=
  ∀ x, m x = if x ∈ done ∧ x ≠ "" then some true else none

instance (bandwidths : List String) (i : Nat) : Decidable (IsLowestMax bandwidths i) := by
  unfold IsLowestMax; infer_instance

/-! ## `countSegmentsFromSegmentBase` and the index path as a whole (mpd.go) -/

/-- Embedding of `countSegmentsFromSegmentBase` once `parseByteRange(indexRange)` has returned
`indexStart` and `httpRangeGet` has returned `idxBuf` (either failure returns that error before
the buffer is scanned): the count, the parsed index and `sidxStartInFile`. -/
def countSegmentsFromSegmentBase (indexStart : Int) (idxBuf : List Byte) :
    Result (Nat × sidxInfo × Int) :=
  match findAndParseSidx idxBuf with
  | .ok sidx =>
    .ok (sidx.referencedSizes.length, sidx, wrapInt64 (indexStart + sidx.sidxBoxOffsetInBuf))
  | .error msg => .error msg
  | .panic => .panic
  | .outOfFuel => .outOfFuel

/-- Index path of `HandleDownloadTrack` from the call of `countSegmentsFromSegmentBase` to the
end of the segment loop, once the init range has been fetched and written as `initBytes`: the
segment byte ranges requested, in order. -/
def indexPathTrack (env : IndexEnv) (indexStart : Int) (idxBuf initBytes : List Byte) :
    Result (List (Int × Int)) :=
  match countSegmentsFromSegmentBase indexStart idxBuf with
  | .ok (_, sidx, sidxStart) => .ok (indexPathRequests env sidx sidxStart initBytes)
  | .error msg => .error msg
  | .panic => .panic
  | .outOfFuel => .outOfFuel

/-! ## Template path of `HandleDownloadTrack`: segment names, workers and ordered assembly
(mpd.go) -/

/-- Scan of `strings.ReplaceAll` for a non-empty `old`: `skip` characters of a matched instance
are still to be dropped; instances are found left to right and do not overlap. -/
def replaceAllAux (old new : List Char) : Nat → List Char → List Char
  | _, [] => []
  | skip + 1, _ :: cs => replaceAllAux old new skip cs
  | 0, c :: cs =>
    if old.isPrefixOf (c :: cs) then new ++ replaceAllAux old new (old.length - 1) cs
    else c :: replaceAllAux old new 0 cs

/-- Go `strings.ReplaceAll(s, old, new)` for a non-empty `old`. -/
def ReplaceAll (s old new : String) : String :=
  String.mk (replaceAllAux old.toList new.toList 0 s.toList)

/-- Go `strconv.Itoa`. -/
def Itoa (n : Int) : String :=
  if n < 0 then "-" ++ Nat.repr n.natAbs else Nat.repr n.natAbs

/-- The name `segName` (also `filename`) computed by the worker of segment `index`. -/
def segName (mediaTemplate adaptation : String) (startNumber : Int) (index : Nat) : String :=
  let segNumber := wrapInt64 (startNumber + (index : Int))
  let segName := ReplaceAll mediaTemplate "$RepresentationID$" adaptation
  ReplaceAll segName "$Number$" (Itoa segNumber)

/-- The name `tempFile := filepath + ".tmp"` of `downloadWithRetry` for a file name. -/
def tempName (filename : String) : String := filename ++ ".tmp"

/-- A name that denotes an entry of the `downloads` directory itself: not empty and without
a path separator. Two such names denote the same file only when they are equal (the file
system is taken to be case-sensitive). -/
def PlainName (name : String) : Prop := name ≠ "" ∧ '/' ∉ name.toList

instance (name : String) : Decidable (PlainName name) := by
  unfold PlainName; infer_instance

/-- A file of the `downloads` directory: the track file, created as `./downloads/<initmp4>`
and open as `mastertrack`, or any other file with its contents. -/
inductive DirEntry where
  | track
  | data (b : List Byte)
deriving DecidableEq

/-- The entries of the `downloads` directory, by name. -/
abbrev Dir := String → Option DirEntry

/-- Removal of a name from the directory. -/
def Dir.remove (d : Dir) (name : String) : Dir := fun x => if x = name then none else d x

/-- A file put in place under a name. -/
def Dir.write (d : Dir) (name : String) (e : DirEntry) : Dir :=
  fun x => if x = name then some e else d x

/-- Outcomes of the local file operations of the assembly loop, by slot: whether `os.Open` of
an existing file succeeds, and the bytes `io.Copy` appends to the track given the bytes of the
file (all of them when the copy succeeds). -/
structure LocalFs where
  openOk : Nat → Bool
  copied : Nat → List Byte → List Byte

/-- Every local open succeeds and every local copy is complete. -/
def LocalFs.Reliable (fs : LocalFs) : Prop :=
  (∀ k, fs.openOk k = true) ∧ (∀ k b, fs.copied k b = b)

/-- The local file system on which every open and copy succeeds. -/
def reliableFs : LocalFs := { openOk := fun _ => true, copied := fun _ b => b }

/-- State shared by the workers and the assembly loop: the directory, the contents of the
track file (the file `mastertrack` is open on, whatever its name has become) and the slice
`files`. -/
structure PoolState where
  dir : Dir
  track : List Byte
  files : List String

/-- Go `os.Remove` of a file of the directory (no effect when it does not exist). The file
`mastertrack` is open on stays usable, but the name is gone. -/
def PoolState.remove (st : PoolState) (name : String) : PoolState :=
  { st with dir := st.dir.remove name }

/-- Go `os.Create(name)` followed by writing `b` and `Close`: an existing file is truncated
and rewritten, also when it is the track file. -/
def PoolState.create (st : PoolState) (name : String) (b : List Byte) : PoolState :=
  match st.dir name with
  | some .track => { st with track := b }
  | _ => { st with dir := st.dir.write name (.data b) }

/-- Go `os.Rename(old, new)` of an existing file. -/
def PoolState.rename (st : PoolState) (old new : String) : PoolState :=
  match st.dir old with
  | none => st
  | some e => { st with dir := (st.dir.remove old).write new e }

/-- What one call `downloadWithRetry(segURL, filePath)` does over all its attempts.
* `failed`: it returns an error and no attempt got as far as `os.Create(tempFile)`.
* `failedAfterCreate left`: it returns an error after some attempt created the temporary
  file, which has been removed or renamed since; `left` is what a failed `copyFile` left
  under `filePath`, if anything.
* `done b renamed`: it returns `nil`; the last attempt wrote the body `b` to the temporary
  file and put it in place, by `os.Rename` (`renamed`) or else by `copyFile`. -/
inductive Download where
  | failed
  | failedAfterCreate (left : Option (List Byte))
  | done (b : List Byte) (renamed : Bool)
deriving DecidableEq

/-- Whether the download returned `nil`. -/
def Download.isDone : Download → Bool
  | .done _ _ => true
  | _ => false

/-- The bytes of the downloaded file; none for a failed download. -/
def Download.bytes : Download → List Byte
  | .done b _ => b
  | _ => []

/-- One worker goroutine of the template path, run to completion: it removes any file of its
name, then runs `downloadWithRetry`, whose outcome is `fetch index`; on an error it reports
on `errChan` and leaves its slot of `files` empty, otherwise it stores its file name there. -/
def worker (mediaTemplate adaptation : String) (startNumber : Int)
    (fetch : Nat → Download) (index : Nat) (st : PoolState) : PoolState :=
  let filename := segName mediaTemplate adaptation startNumber index
  let st := st.remove filename
  match fetch index with
  | .failed => st
  | .failedAfterCreate left =>
    let st := ((st.create (tempName filename) []).remove filename).remove (tempName filename)
    match left with
    | none => st
    | some g => st.create filename g
  | .done b renamed =>
    let st := (st.create (tempName filename) b).remove filename
    let st :=
      if renamed then st.rename (tempName filename) filename
      else (st.create filename b).remove (tempName filename)
    { st with files := st.files.set index filename }

/-- The workers taking effect in the order `order` (the order in which the goroutines
complete), up to the barrier `wg.Wait()`. -/
def runWorkers (mediaTemplate adaptation : String) (startNumber : Int)
    (fetch : Nat → Download) (order : List Nat) (st : PoolState) : PoolState :=
  order.foldl (fun s i => worker mediaTemplate adaptation startNumber fetch i s) st

/-- The loop `for _, filename := range files` after the barrier, from slot `k` on, on the
directory and the contents of the track file: an empty slot and a file that cannot be opened
are skipped, any other file is copied to the end of the track and removed. `none`: the file
opened is the track file itself, and copying a file to its own end does not finish. -/
def assembleLoop (fs : LocalFs) : Nat → List String → Dir → List Byte → Option (Dir × List Byte)
  | _, [], dir, mastertrack => some (dir, mastertrack)
  | k, filename :: rest, dir, mastertrack =>
    if filename = "" then assembleLoop fs (k + 1) rest dir mastertrack
    else
      match dir filename with
      | none => assembleLoop fs (k + 1) rest dir mastertrack
      | some entry =>
        if fs.openOk k = false then assembleLoop fs (k + 1) rest dir mastertrack
        else
          match entry with
          | .track => none
          | .data b =>
            assembleLoop fs (k + 1) rest (dir.remove filename) (mastertrack ++ fs.copied k b)

/-- Template path of `HandleDownloadTrack` from `mastertrack, err := os.OpenFile(initPath, ...)`
to the end of the assembly loop. The init segment has just been put in place as
`./downloads/<initmp4>` with contents `initBytes`, and `existing` are the other files of the
directory, regular files with contents of their own. The result is the assembled track file,
that is the file found under `./downloads/<initmp4>` after the loop, which the last step
(decrypt or copy) reads; an error when no file has that name any more. -/
def templateTrack (mediaTemplate adaptation : String) (startNumber : Int) (segmentCount : Nat)
    (fetch : Nat → Download) (order : List Nat) (fs : LocalFs)
    (existing : String → Option (List Byte)) (initmp4 : String) (initBytes : List Byte) :
    Result (List Byte) :=
  let st := runWorkers mediaTemplate adaptation startNumber fetch order
    { dir := fun x => if x = initmp4 then some .track else (existing x).map .data,
      track := initBytes,
      files := List.replicate segmentCount "" }
  match assembleLoop fs 0 st.files st.dir st.track with
  | none => .outOfFuel
  | some (dir', mastertrack) =>
    match dir' initmp4 with
    | some .track => .ok mastertrack
    | some (.data b) => .ok b
    | none => .error "track file missing"

/-- The bytes the segments contribute, in index order: those of the fetched ones. -/
def fetchedInOrder (segmentCount : Nat) (fetch : Nat → Download) : List Byte :=
  concatBoxes ((List.range segmentCount).map (fun i => (fetch i).bytes))

/-- Two fetched segments with contents `[1]` and `[2]`. -/
def twoFetched : Nat → Download
  | 0 => .done [1] true
  | _ => .done [2] true

/-- Three segments, the middle one failed. -/
def middleFailed : Nat → Download
  | 0 => .done [1, 1] true
  | 1 => .failedAfterCreate none
  | _ => .done [3] false

/-- Invariant of the worker pool for the workers in `done`: the slot of a fetched one holds its
file name, every other slot is empty, the file of a fetched one holds its bytes, and the track
file is in place under the init name only, with the init bytes. -/
def PoolInv (mt ad : String) (sn : Int) (n : Nat) (fetch : Nat → Download) (init : String)
    (initBytes : List Byte) (done : List Nat) (st : PoolState) : Prop :=
  st.files = (List.range n).map (fun i =>
      if i ∈ done ∧ (fetch i).isDone then segName mt ad sn i else "")
    ∧ (∀ i, i ∈ done → ∀ b r, fetch i = .done b r →
        st.dir (segName mt ad sn i) = some (.data b))
    ∧ st.dir init = some .track
    ∧ (∀ x, st.dir x = some .track → x = init)
    ∧ st.track = initBytes


/-! ## `downloadWithRetry` (mpd.go) -/

/-- The constant `maxRetries`. -/
def maxRetries : Nat := 3

/-- The constant `retryDelay = 2 * time.Second`, in nanoseconds (the unit of `time.Duration`). -/
def retryDelay : Nat := 2 * 1000000000

/-- What one pass through the body of the retry loop runs into: `client.Get` fails, the status
is not 200, `os.Create` of the temporary file fails, `io.Copy` fails, neither `os.Rename` nor
`copyFile` puts the file in place, the file in place is empty, or a non-empty file is in
place. -/
inductive AttemptOutcome where
  | transportError
  | badStatus
  | createError
  | copyError
  | finalFileError
  | emptyFile
  | written
deriving DecidableEq

/-- What `downloadWithRetry` did: the number of `client.Get` calls and the arguments of the
`time.Sleep` calls, in order. -/
structure RetryTrace where
  attempts : Nat
  sleeps : List Nat
deriving DecidableEq

/-- The branch taken after a failed attempt that may be retried: return the error on the last
attempt, otherwise `time.Sleep(retryDelay * time.Duration(attempt))` and `continue` (the
continuation is `next`). -/
def retryOrFail (attempt : Nat) (msg : String) (tr : RetryTrace)
    (next : RetryTrace → Result Unit × RetryTrace) : Result Unit × RetryTrace :=
  if attempt = maxRetries then (.error msg, tr)
  else next { tr with sleeps := tr.sleeps ++ [retryDelay * attempt] }

/-- The loop `for attempt := 1; attempt <= maxRetries; attempt++` of `downloadWithRetry`, one
unit of fuel per evaluation of the loop condition; `outcome k` is what attempt `k` runs into. -/
def downloadWithRetryLoop (outcome : Nat → AttemptOutcome) :
    Nat → Nat → RetryTrace → Result Unit × RetryTrace
  | 0, _, tr => (.outOfFuel, tr)
  | fuel + 1, attempt, tr =>
    if ¬ attempt ≤ maxRetries then (.error "unknown error downloading", tr)
    else
      let tr : RetryTrace := { tr with attempts := tr.attempts + 1 }
      let next := downloadWithRetryLoop outcome fuel (attempt + 1)
      match outcome attempt with
      | .transportError => retryOrFail attempt "failed after 3 attempts" tr next
      | .badStatus => retryOrFail attempt "bad status after 3 attempts" tr next
      | .createError => (.error "create", tr)
      | .copyError => retryOrFail attempt "copy" tr next
      | .finalFileError => retryOrFail attempt "failed to create final file" tr next
      | .emptyFile => retryOrFail attempt "file integrity check failed after 3 attempts" tr next
      | .written => (.ok (), tr)

/-- Embedding of `downloadWithRetry(url, filepath)` against the outcomes of its attempts. -/
def downloadWithRetry (outcome : Nat → AttemptOutcome) : Result Unit × RetryTrace :=
  downloadWithRetryLoop outcome (maxRetries + 1) 1 { attempts := 0, sleeps := [] }

/-- Outcomes: two failures, then a non-empty write. -/
def failTwiceThenWrite : Nat → AttemptOutcome
  | 1 => .transportError
  | 2 => .badStatus
  | _ => .written

/-! ## `EncodeToBase62` (mpd.go) and the merge key of `main` -/

/-- The constant `base62`. -/
def base62 : List Char := "0123456789abcdefghijklmnopqrstuvwxyzABCDEFGHIJKLMNOPQRSTUVWXYZ".toList

/-- The loop `for n.Cmp(zero) != 0` of `EncodeToBase62`, one unit of fuel per evaluation of the
loop condition; `n` is the arbitrary-precision integer and `result` the string built so far.
`base62[mod.Int64()]` is an index expression and panics out of range. -/
def EncodeToBase62Loop : Nat → Nat → List Char → Result (List Char)
  | 0, _, _ => .outOfFuel
  | fuel + 1, n, result =>
    if n = 0 then .ok result
    else
      match base62.get? (n % 62) with
      | none => .panic
      | some c => EncodeToBase62Loop fuel (n / 62) (c :: result)

/-- Embedding of `EncodeToBase62(s)` on the bytes of `s`: `SetBytes` reads them as a big-endian
unsigned integer. Every pass divides `n` by 62, so `n + 1` evaluations of the loop condition
are enough. -/
def EncodeToBase62 (s : List Byte) : Result (List Char) :=
  EncodeToBase62Loop (beUint s + 1) (beUint s) []

/-- The argument `EncodeToBase62(kid)[:8]` of `Merge` in `main`: the slice expression panics
when the encoded string has fewer than 8 bytes. -/
def mergeKey (kid : List Byte) : Result (List Char) :=
  match EncodeToBase62 kid with
  | .ok r => if 8 ≤ r.length then .ok (r.take 8) else .panic
  | .error msg => .error msg
  | .panic => .panic
  | .outOfFuel => .outOfFuel

/-- Base-62 numeral of `n`, most significant digit first, in the alphabet `base62`
(specification side). -/
def base62Numeral (n : Nat) : List Char :=
  (Nat.digits 62 n).reverse.map (fun d => base62.getD d '0')

/-- The bytes of a key ID given as ASCII text. -/
def kidBytes (s : String) : List Byte := s.toList.map (fun c => Fin.ofNat c.toNat)

/-! ## Planned byte ranges of the index path (specification side) -/

/-- The byte ranges of the references of `sizes` laid end to end from `start`, in 64-bit
arithmetic: the `i`-th one is `[start + (s_0+…+s_{i-1}), start + (s_0+…+s_i) - 1]`. -/
def plannedRanges (start : Int) (sizes : List Nat) : List (Int × Int) :=
  (List.range sizes.length).map (fun i =>
    (wrapInt64 (start + cumSize sizes i), wrapInt64 (start + cumSize sizes (i + 1) - 1)))

/-- The environment in which the `j`-th range request fails and everything else succeeds. -/
def failAt (j : Nat) : IndexEnv :=
  { httpRangeGet := fun k _ _ => if k = j then none else some [], copyOk := fun _ => true }

/-- Parsed index with one reference of size 1000 and first offset `2^63 - 1`. -/
def hugeOffsetSidx : sidxInfo :=
  { firstOffset := 2 ^ 63 - 1, referencedSizes := [1000], sidxBoxSize := 44,
    sidxBoxOffsetInBuf := 0 }

/-! ## Segment count of the template path: float64 arithmetic (main.go, mpd.go) -/

/-- A float64 value in sign-magnitude form: NaN, an infinity, or a finite value
    `(-1)^neg * mag` with `0 ≤ mag`.  `fin false 0` is `+0` and `fin true 0` is `-0`. -/
inductive F64
  | nan
  | inf (neg : Bool)
  | fin (neg : Bool) (mag : ℚ)
deriving DecidableEq

/-- Round to the nearest integer, ties to the even one. -/
def roundHalfEven (q : ℚ) : ℤ :=
  if q - ⌊q⌋ < 1 / 2 then ⌊q⌋
  else if 1 / 2 < q - ⌊q⌋ then ⌊q⌋ + 1
  else if ⌊q⌋ % 2 = 0 then ⌊q⌋ else ⌊q⌋ + 1

/-- Exponent of the unit in the last place of the binary64 format at magnitude `x`:
    53 significant bits, least exponent `-1074` (subnormal numbers). -/
def f64UlpExp (x : ℚ) : ℤ := max (Int.log 2 x - 52) (-1074)

/-- IEEE 754 binary64 rounding (round to nearest, ties to even) of an exact magnitude
    `0 ≤ x`; `none` is overflow to infinity. -/
def f64Round (x : ℚ) : Option ℚ :=
  let r := (roundHalfEven (x / 2 ^ f64UlpExp x) : ℚ) * 2 ^ f64UlpExp x
  if r < 2 ^ 1024 then some r else none

/-- The float64 nearest to the real number `(-1)^neg * x`. -/
def F64.round (neg : Bool) (x : ℚ) : F64 :=
  match f64Round x with
  | some r => .fin neg r
  | none => .inf neg

/-- Go conversion `float64(i)` of an integer. -/
def float64 (i : Int) : F64 := F64.round (decide (i < 0)) (|i| : ℤ)

/-- Go float64 division `x / y` (IEEE 754). -/
def F64.div : F64 → F64 → F64
  | .nan, _ => .nan
  | _, .nan => .nan
  | .inf _, .inf _ => .nan
  | .inf s, .fin t _ => .inf (xor s t)
  | .fin s _, .inf t => .fin (xor s t) 0
  | .fin s x, .fin t y =>
    if y = 0 then (if x = 0 then .nan else .inf (xor s t))
    else F64.round (xor s t) (x / y)

/-- `math.Ceil`. -/
def Ceil : F64 → F64
  | .nan => .nan
  | .inf s => .inf s
  | .fin false m => .fin false ((⌈m⌉ : ℤ) : ℚ)
  | .fin true m => .fin true ((⌊m⌋ : ℤ) : ℚ)

/-- Go comparison `x <= 0` on float64. -/
def F64.leZero : F64 → Bool
  | .nan => false
  | .inf s => s
  | .fin s m => s || decide (m = 0)

/-- Go conversion `int(x)` of a float64 on a 64-bit platform: truncation toward zero;
    `none` when the value is not representable, where the Go specification leaves the
    result to the implementation. -/
def F64.toInt : F64 → Option Int
  | .fin s m =>
    let t : Int := if s then -⌊m⌋ else ⌊m⌋
    if -2 ^ 63 ≤ t ∧ t < 2 ^ 63 then some t else none
  | _ => none

/-- `numberOfSegments = math.Ceil(trackduration / (float64(segmentDuration) /
    float64(timescale)))` (main.go:142). -/
def numberOfSegments (trackduration : F64) (segmentDuration timescale : Int) : F64 :=
  Ceil (trackduration.div ((float64 segmentDuration).div (float64 timescale)))

/-- Outcome of the segment count computation: `main` returns before any download,
    or `HandleDownloadTrack` sets `segmentCount`, or the conversion to `int` is
    left to the implementation. -/
inductive SegmentCount
  | exits
  | count (n : Int)
  | unspecified
deriving DecidableEq

/-- The template-path segment count: `numberOfSegments` of main.go:142, the check
    `numberOfSegments <= 0` of main.go:147, and `segmentCount := int(numberofsegments)`
    of mpd.go:569. -/
def templateSegmentCount (trackduration : F64) (segmentDuration timescale : Int) :
    SegmentCount :=
  let n := numberOfSegments trackduration segmentDuration timescale
  if n.leZero then .exits
  else match n.toInt with
    | some k => .count k
    | none => .unspecified

/-! ## Lemmas and theorems -/

theorem wrapInt64_of_range (x : Int) (h1 : -2 ^ 63 ≤ x) (h2 : x < 2 ^ 63) : wrapInt64 x = x := by
  unfold wrapInt64; omega

theorem slice_field (b : List Byte) (pos w : Nat) (lo hi : Int) (hlo : lo = (pos : Int))
    (hhi : hi = (pos : Int) + (w : Int)) (h : pos + w ≤ b.length) :
    slice b lo hi = some ((b.drop pos).take w) := by
  subst hlo hhi
  unfold slice
  rw [if_pos (by omega)]
  congr 2
  · omega

theorem index_getD (b : List Byte) (pos : Nat) (i : Int) (hi : i = (pos : Int))
    (h : pos < b.length) : index b i = some (b.getD pos 0) := by
  subst hi
  unfold index
  rw [if_pos (by omega)]
  simp [List.getD, List.getElem?_eq_getElem h]

theorem land_mask31 (x : Nat) : x &&& 0x7FFFFFFF = x % 2 ^ 31 := by
  have := Nat.and_pow_two_sub_one_eq_mod x 31
  simpa using this

theorem parseSidxRefs_ok (box : List Byte) (n : Nat) :
    ∀ (pos : Nat) (acc : List Nat), pos + 12 * n ≤ box.length →
      parseSidxRefs box n pos acc
        = .ok (acc ++ (List.range n).map (fun j => fieldBE box (pos + 12 * j) 4 % 2 ^ 31)) := by
  induction n with
  | zero => intro pos acc _; simp [parseSidxRefs]
  | succ n ih =>
    intro pos acc h
    unfold parseSidxRefs
    rw [if_neg (by omega), slice_field box pos 4 _ _ rfl (by push_cast; ring) (by omega)]
    simp only []
    rw [ih (pos + 4 + 8) _ (by omega), land_mask31, List.range_succ_eq_map]
    simp only [List.map_cons, List.map_map, List.append_assoc, List.singleton_append, fieldBE,
      Nat.mul_zero, Nat.add_zero]
    congr 3
    apply List.map_congr_left
    intro j _
    simp only [Function.comp]
    congr 4
    omega

theorem parseSidxRefs_short (box : List Byte) (n : Nat) :
    ∀ (pos : Nat) (acc : List Nat), pos ≤ box.length → box.length < pos + 12 * n →
      ∃ msg, parseSidxRefs box n pos acc = .error msg := by
  induction n with
  | zero => intro pos acc h1 h2; omega
  | succ n ih =>
    intro pos acc h1 h2
    unfold parseSidxRefs
    by_cases hc : pos + 12 > box.length
    · exact ⟨_, if_pos hc⟩
    · rw [if_neg hc, slice_field box pos 4 _ _ rfl (by push_cast; ring) (by omega)]
      exact ih (pos + 4 + 8) _ (by omega) (by omega)

theorem parseSidxTail_ok (box : List Byte) (off : Int) (bs fo pos : Nat)
    (h : pos + 4 + 12 * fieldBE box (pos + 2) 2 ≤ box.length) :
    parseSidxTail box off bs fo pos
      = .ok { firstOffset := fo,
              referencedSizes := (List.range (fieldBE box (pos + 2) 2)).map
                (fun j => fieldBE box (pos + 4 + 12 * j) 4 % 2 ^ 31),
              sidxBoxSize := bs, sidxBoxOffsetInBuf := off } := by
  unfold parseSidxTail
  rw [if_neg (by omega)]
  dsimp only
  rw [slice_field box (pos + 2) 2 _ _ rfl (by push_cast; ring) (by omega)]
  dsimp only
  rw [show beUint (List.take 2 (List.drop (pos + 2) box)) = fieldBE box (pos + 2) 2 from rfl,
    parseSidxRefs_ok box _ (pos + 2 + 2) [] (by omega)]
  simp only [List.nil_append]

theorem parseSidxTail_short (box : List Byte) (off : Int) (bs fo pos : Nat)
    (h : box.length < pos + 4 + 12 * fieldBE box (pos + 2) 2) :
    ∃ msg, parseSidxTail box off bs fo pos = .error msg := by
  unfold parseSidxTail
  by_cases hc : pos + 4 > box.length
  · exact ⟨_, if_pos hc⟩
  · rw [if_neg hc]
    dsimp only
    rw [slice_field box (pos + 2) 2 _ _ rfl (by push_cast; ring) (by omega)]
    dsimp only
    rw [show beUint (List.take 2 (List.drop (pos + 2) box)) = fieldBE box (pos + 2) 2 from rfl]
    obtain ⟨msg, hm⟩ := parseSidxRefs_short box (fieldBE box (pos + 2) 2) (pos + 2 + 2) []
      (by omega) (by omega)
    exact ⟨msg, by rw [hm]⟩

theorem sidxHdr_ge (box : List Byte) : 8 ≤ sidxHdr box := by
  unfold sidxHdr hdrLenAt; split <;> omega

theorem parseSidxBox_ok (box : List Byte) (off : Int) (bs : Nat)
    (h : sidxNeeded box ≤ box.length) :
    parseSidxBox box off bs
      = .ok { firstOffset := sidxFirstOffset box,
              referencedSizes := (List.range (sidxRefCount box)).map (sidxRefSize box),
              sidxBoxSize := bs, sidxBoxOffsetInBuf := off } := by
  have h8 := sidxHdr_ge box
  have hN : sidxNeeded box = sidxHdr box + 12 + sidxVarLen box + 4 + 12 * sidxRefCount box := rfl
  have hR : sidxRefCount box = fieldBE box (sidxHdr box + 12 + sidxVarLen box + 2) 2 := rfl
  have hvl : sidxVarLen box = if sidxVersion box = 0 then 8 else 16 := rfl
  have h0 : slice box 0 4 = some (box.take 4) :=
    slice_field box 0 4 0 4 (by simp) (by simp) (by omega)
  unfold parseSidxBox
  rw [h0]
  dsimp only
  rw [show (if beUint (List.take 4 box) = 1 then 16 else 8) = sidxHdr box from rfl]
  generalize hH : sidxHdr box = H at *
  rw [if_neg (by omega), index_getD box H _ rfl (by omega)]
  dsimp only
  rw [if_neg (by omega), slice_field box (H + 4 + 4) 4 _ _ rfl (by push_cast; ring) (by omega)]
  dsimp only
  have hV : (box.getD H 0).val = sidxVersion box := by rw [← hH]; rfl
  rw [hV]
  by_cases hv : sidxVersion box = 0
  · rw [if_pos hv] at hvl
    rw [if_pos hv, if_neg (by omega),
      slice_field box (H + 4 + 4 + 4) 4 _ _ rfl (by push_cast; ring) (by omega)]
    dsimp only
    rw [slice_field box (H + 4 + 4 + 4 + 4) 4 _ _ rfl (by push_cast; ring) (by omega)]
    dsimp only
    have e1 : H + 4 + 4 + 4 + 4 + 4 + 2 = H + 12 + sidxVarLen box + 2 := by omega
    rw [parseSidxTail_ok box off bs _ _ (by rw [e1, ← hR]; omega), e1, ← hR]
    congr 2
    · unfold sidxFirstOffset; rw [if_pos hv, hH]; rfl
    · apply List.map_congr_left
      intro j _
      unfold sidxRefSize
      rw [hH]
      congr 2
      omega
  · rw [if_neg hv] at hvl
    rw [if_neg hv, if_neg (by omega),
      slice_field box (H + 4 + 4 + 4) 8 _ _ rfl (by push_cast; ring) (by omega)]
    dsimp only
    rw [slice_field box (H + 4 + 4 + 4 + 8) 8 _ _ rfl (by push_cast; ring) (by omega)]
    dsimp only
    have e1 : H + 4 + 4 + 4 + 8 + 8 + 2 = H + 12 + sidxVarLen box + 2 := by omega
    rw [parseSidxTail_ok box off bs _ _ (by rw [e1, ← hR]; omega), e1, ← hR]
    congr 2
    · unfold sidxFirstOffset; rw [if_neg hv, hH]; rfl
    · apply List.map_congr_left
      intro j _
      unfold sidxRefSize
      rw [hH]
      congr 2
      omega

theorem parseSidxBox_short (box : List Byte) (off : Int) (bs : Nat)
    (hlen : sidxHdr box ≤ box.length) (h : box.length < sidxNeeded box) :
    ∃ msg, parseSidxBox box off bs = .error msg := by
  have h8 := sidxHdr_ge box
  have hN : sidxNeeded box = sidxHdr box + 12 + sidxVarLen box + 4 + 12 * sidxRefCount box := rfl
  have hR : sidxRefCount box = fieldBE box (sidxHdr box + 12 + sidxVarLen box + 2) 2 := rfl
  have hvl : sidxVarLen box = if sidxVersion box = 0 then 8 else 16 := rfl
  have h0 : slice box 0 4 = some (box.take 4) :=
    slice_field box 0 4 0 4 (by simp) (by simp) (by omega)
  unfold parseSidxBox
  rw [h0]
  dsimp only
  rw [show (if beUint (List.take 4 box) = 1 then 16 else 8) = sidxHdr box from rfl]
  generalize hH : sidxHdr box = H at *
  by_cases c1 : H + 4 > box.length
  · exact ⟨_, if_pos c1⟩
  rw [if_neg c1, index_getD box H _ rfl (by omega)]
  dsimp only
  by_cases c2 : H + 4 + 8 > box.length
  · exact ⟨_, if_pos c2⟩
  rw [if_neg c2, slice_field box (H + 4 + 4) 4 _ _ rfl (by push_cast; ring) (by omega)]
  dsimp only
  have hV : (box.getD H 0).val = sidxVersion box := by rw [← hH]; rfl
  rw [hV]
  by_cases hv : sidxVersion box = 0
  · rw [if_pos hv] at hvl
    rw [if_pos hv]
    by_cases c3 : H + 4 + 4 + 4 + 8 > box.length
    · exact ⟨_, if_pos c3⟩
    rw [if_neg c3, slice_field box (H + 4 + 4 + 4) 4 _ _ rfl (by push_cast; ring) (by omega)]
    dsimp only
    rw [slice_field box (H + 4 + 4 + 4 + 4) 4 _ _ rfl (by push_cast; ring) (by omega)]
    dsimp only
    have e1 : H + 4 + 4 + 4 + 4 + 4 + 2 = H + 12 + sidxVarLen box + 2 := by omega
    exact parseSidxTail_short box off bs _ _ (by rw [e1, ← hR]; omega)
  · rw [if_neg hv] at hvl
    rw [if_neg hv]
    by_cases c3 : H + 4 + 4 + 4 + 16 > box.length
    · exact ⟨_, if_pos c3⟩
    rw [if_neg c3, slice_field box (H + 4 + 4 + 4) 8 _ _ rfl (by push_cast; ring) (by omega)]
    dsimp only
    rw [slice_field box (H + 4 + 4 + 4 + 8) 8 _ _ rfl (by push_cast; ring) (by omega)]
    dsimp only
    have e1 : H + 4 + 4 + 4 + 8 + 8 + 2 = H + 12 + sidxVarLen box + 2 := by omega
    exact parseSidxTail_short box off bs _ _ (by rw [e1, ← hR]; omega)

theorem loop_step (buf : List Byte) (fuel i : Nat) (hlen : buf.length < 2 ^ 62)
    (h8 : i + 8 ≤ buf.length) :
    findAndParseSidxLoop buf (fuel + 1) i =
      if fieldBE buf i 4 = 1 ∧ buf.length < i + 16 then .error "invalid large size box"
      else if declaredAt buf i < hdrLenAt buf i
          ∨ wrapInt64 (i + uint64ToInt (declaredAt buf i)) > (buf.length : Int) then
        .error "invalid box size"
      else if typeAt buf i = sidxTag then
        match slice buf i (wrapInt64 (i + uint64ToInt (declaredAt buf i))) with
        | none => .panic
        | some box => parseSidxBox box i (declaredAt buf i)
      else findAndParseSidxLoop buf fuel (wrapInt64 (i + uint64ToInt (declaredAt buf i))) := by
  have w4 : wrapInt64 ((i : Int) + 4) = (i : Int) + 4 := wrapInt64_of_range _ (by omega) (by omega)
  have w8 : wrapInt64 ((i : Int) + 8) = (i : Int) + 8 := wrapInt64_of_range _ (by omega) (by omega)
  have w16 : wrapInt64 ((i : Int) + 16) = (i : Int) + 16 :=
    wrapInt64_of_range _ (by omega) (by omega)
  rw [findAndParseSidxLoop]
  rw [w4, w8, w16, if_neg (by omega),
    slice_field buf i 4 _ _ rfl (by push_cast; ring) (by omega),
    slice_field buf (i + 4) 4 _ _ (by push_cast; ring) (by push_cast; ring) (by omega)]
  dsimp only
  rw [show beUint (List.take 4 (List.drop i buf)) = fieldBE buf i 4 from rfl,
    show List.take 4 (List.drop (i + 4) buf) = typeAt buf i from rfl]
  by_cases hs : fieldBE buf i 4 = 1
  · have hd : declaredAt buf i = fieldBE buf (i + 8) 8 := by unfold declaredAt; rw [if_pos hs]
    have hh : hdrLenAt buf i = 16 := by unfold hdrLenAt; rw [if_pos hs]
    rw [if_pos hs]
    by_cases hl : buf.length < i + 16
    · rw [if_pos (by omega), if_pos ⟨hs, hl⟩]
    · rw [if_neg (by omega), if_neg (fun h => hl h.2),
        slice_field buf (i + 8) 8 _ _ (by push_cast; ring) (by push_cast; ring) (by omega)]
      dsimp only
      rw [show beUint (List.take 8 (List.drop (i + 8) buf)) = fieldBE buf (i + 8) 8 from rfl,
        hd, hh]
  · have hd : declaredAt buf i = fieldBE buf i 4 := by unfold declaredAt; rw [if_neg hs]
    have hh : hdrLenAt buf i = 8 := by unfold hdrLenAt; rw [if_neg hs]
    rw [if_neg hs, if_neg (fun h => hs h.1)]
    dsimp only
    rw [hd, hh]

/-- More fuel does not change a result that was reached within the fuel. -/
theorem findAndParseSidxLoop_mono (buf : List Byte) :
    ∀ (fuel : Nat) (i : Int), findAndParseSidxLoop buf fuel i ≠ .outOfFuel →
      findAndParseSidxLoop buf (fuel + 1) i = findAndParseSidxLoop buf fuel i := by
  intro fuel
  induction fuel with
  | zero => intro i h; exact absurd rfl h
  | succ n ih =>
    intro i h
    rw [findAndParseSidxLoop] at h
    conv_lhs => rw [findAndParseSidxLoop]
    conv_rhs => rw [findAndParseSidxLoop]
    revert h
    split
    · exact fun _ => rfl
    · split
      · exact fun _ => rfl
      · split
        · exact fun _ => rfl
        · dsimp only
          split
          · exact fun _ => rfl
          · exact fun _ => rfl
          · exact fun _ => rfl
          · split
            · exact fun _ => rfl
            · split
              · exact fun _ => rfl
              · exact fun h => ih _ h

theorem findAndParseSidxLoop_fuel_ge (buf : List Byte) (fuel extra : Nat) (i : Int)
    (h : findAndParseSidxLoop buf fuel i ≠ .outOfFuel) :
    findAndParseSidxLoop buf (fuel + extra) i = findAndParseSidxLoop buf fuel i := by
  induction extra with
  | zero => rfl
  | succ e ih =>
    rw [← Nat.add_assoc, findAndParseSidxLoop_mono buf (fuel + e) i (by rw [ih]; exact h), ih]

theorem fieldBE_mid (a box rest : List Byte) (p w : Nat) (h : p + w ≤ box.length) :
    fieldBE (a ++ (box ++ rest)) (a.length + p) w = fieldBE box p w := by
  unfold fieldBE
  rw [List.drop_append, List.drop_append_of_le_length (by omega),
    List.take_append_of_le_length (by rw [List.length_drop]; omega)]

theorem hdrLenAt_ge (buf : List Byte) (i : Nat) : 8 ≤ hdrLenAt buf i := by
  unfold hdrLenAt; split <;> omega

theorem hdrLenAt_mid (a box rest : List Byte) (h : 8 ≤ box.length) :
    hdrLenAt (a ++ (box ++ rest)) a.length = hdrLenAt box 0 := by
  unfold hdrLenAt
  rw [show a.length = a.length + 0 from rfl, fieldBE_mid a box rest 0 4 (by omega)]

theorem declaredAt_mid (a box rest : List Byte) (h : hdrLenAt box 0 ≤ box.length) :
    declaredAt (a ++ (box ++ rest)) a.length = declaredAt box 0 := by
  have h8 := hdrLenAt_ge box 0
  have hh : hdrLenAt box 0 = if fieldBE box 0 4 = 1 then 16 else 8 := rfl
  unfold declaredAt
  have e : fieldBE (a ++ (box ++ rest)) a.length 4 = fieldBE box 0 4 :=
    fieldBE_mid a box rest 0 4 (by omega)
  rw [e]
  by_cases hs : fieldBE box 0 4 = 1
  · rw [if_pos hs] at hh
    rw [if_pos hs, if_pos hs, fieldBE_mid a box rest 8 8 (by omega)]
  · rw [if_neg hs, if_neg hs]

theorem typeAt_mid (a box rest : List Byte) (h : 8 ≤ box.length) :
    typeAt (a ++ (box ++ rest)) a.length = typeAt box 0 := by
  unfold typeAt
  rw [List.drop_append, List.drop_append_of_le_length (by omega),
    List.take_append_of_le_length (by rw [List.length_drop]; omega)]

theorem scan_step (a box rest : List Byte) (fuel : Nat) (hwf : WellFormedBox box)
    (hlen : (a ++ (box ++ rest)).length < 2 ^ 62) :
    findAndParseSidxLoop (a ++ (box ++ rest)) (fuel + 1) (a.length : Nat) =
      if boxType box = sidxTag then parseSidxBox box (a.length : Nat) box.length
      else findAndParseSidxLoop (a ++ (box ++ rest)) fuel ((a.length + box.length : Nat) : Int) := by
  obtain ⟨hh, hd⟩ := hwf
  have h8 := hdrLenAt_ge box 0
  have hl : (a ++ (box ++ rest)).length = a.length + (box.length + rest.length) := by
    simp [List.length_append]
  have hw : wrapInt64 ((a.length : Int) + uint64ToInt box.length)
      = ((a.length + box.length : Nat) : Int) := by
    have e1 : wrapInt64 (box.length : Int) = (box.length : Int) :=
      wrapInt64_of_range _ (by omega) (by omega)
    unfold uint64ToInt
    rw [e1, wrapInt64_of_range _ (by omega) (by omega)]
    push_cast; rfl
  rw [loop_step _ _ _ hlen (by omega), declaredAt_mid a box rest hh, hdrLenAt_mid a box rest
    (by omega), typeAt_mid a box rest (by omega), hd, hw]
  have hfs : fieldBE (a ++ (box ++ rest)) a.length 4 = fieldBE box 0 4 :=
    fieldBE_mid a box rest 0 4 (by omega)
  have hh2 : hdrLenAt box 0 = if fieldBE box 0 4 = 1 then 16 else 8 := rfl
  rw [if_neg (by rw [hfs]; intro hc; rw [if_pos hc.1] at hh2; omega),
    if_neg (by omega)]
  have hsl : slice (a ++ (box ++ rest)) (a.length : Nat) ((a.length + box.length : Nat) : Int)
      = some box := by
    rw [slice_field _ a.length box.length _ _ rfl (by push_cast; ring) (by omega)]
    rw [List.drop_left, List.take_left]
  rw [hsl]
  rfl

theorem concatBoxes_length_ge (pre : List (List Byte)) (h : ∀ b ∈ pre, WellFormedBox b) :
    pre.length ≤ (concatBoxes pre).length := by
  induction pre with
  | nil => simp [concatBoxes]
  | cons b bs ih =>
    have hb := (h b (List.mem_cons_self _ _)).1
    have h8 := hdrLenAt_ge b 0
    have := ih (fun x hx => h x (List.mem_cons_of_mem _ hx))
    simp only [concatBoxes, List.length_append, List.length_cons]
    omega

theorem concatBoxes_length_eq (pre : List (List Byte)) (h : ∀ b ∈ pre, WellFormedBox b) :
    (concatBoxes pre).length = (pre.map boxDeclaredSize).sum := by
  induction pre with
  | nil => simp [concatBoxes]
  | cons b bs ih =>
    have hb := (h b (List.mem_cons_self _ _)).2
    have := ih (fun x hx => h x (List.mem_cons_of_mem _ hx))
    simp only [concatBoxes, List.length_append, List.map_cons, List.sum_cons, boxDeclaredSize]
    omega

theorem scan_pre (pre : List (List Byte)) :
    ∀ (a tail : List Byte) (fuel : Nat),
      (∀ b ∈ pre, WellFormedBox b ∧ boxType b ≠ sidxTag) →
      (a ++ (concatBoxes pre ++ tail)).length < 2 ^ 62 →
      findAndParseSidxLoop (a ++ (concatBoxes pre ++ tail)) (fuel + pre.length) (a.length : Nat)
        = findAndParseSidxLoop (a ++ (concatBoxes pre ++ tail)) fuel
            ((a.length + (concatBoxes pre).length : Nat) : Int) := by
  induction pre with
  | nil => intro a tail fuel _ _; simp [concatBoxes]
  | cons b bs ih =>
    intro a tail fuel hpre hlen
    have hb := hpre b (List.mem_cons_self _ _)
    have e : a ++ (concatBoxes (b :: bs) ++ tail) = a ++ (b ++ (concatBoxes bs ++ tail)) := by
      simp [concatBoxes, List.append_assoc]
    have e2 : a ++ (b ++ (concatBoxes bs ++ tail)) = (a ++ b) ++ (concatBoxes bs ++ tail) := by
      simp [List.append_assoc]
    rw [e] at hlen ⊢
    rw [List.length_cons, ← Nat.add_assoc, scan_step a b _ _ hb.1 hlen, if_neg hb.2]
    rw [e2] at hlen ⊢
    have := ih (a ++ b) tail fuel (fun x hx => hpre x (List.mem_cons_of_mem _ hx)) hlen
    rw [List.length_append] at this
    rw [this]
    simp only [concatBoxes, List.length_append, Nat.add_assoc]

theorem findAndParseSidx_scan (pre : List (List Byte)) (tail : List Byte)
    (hpre : ∀ b ∈ pre, WellFormedBox b ∧ boxType b ≠ sidxTag)
    (hlen : (concatBoxes pre ++ tail).length < 2 ^ 62) :
    findAndParseSidx (concatBoxes pre ++ tail)
      = findAndParseSidxLoop (concatBoxes pre ++ tail)
          ((concatBoxes pre ++ tail).length - pre.length + 1)
          (((concatBoxes pre).length : Nat) : Int) := by
  have hle := concatBoxes_length_ge pre (fun b hb => (hpre b hb).1)
  have h := scan_pre pre [] tail ((concatBoxes pre ++ tail).length - pre.length + 1) hpre
    (by simpa using hlen)
  simp only [List.nil_append, List.length_nil, Nat.zero_add] at h
  unfold findAndParseSidx
  rw [← h]
  congr 1
  rw [List.length_append]
  omega

theorem findAndParseSidx_rejects (pre : List (List Byte)) (tail : List Byte)
    (hpre : ∀ b ∈ pre, WellFormedBox b ∧ boxType b ≠ sidxTag)
    (hlen : (concatBoxes pre ++ tail).length < 2 ^ 62)
    (hbad : tail.length < 8 ∨ (8 ≤ tail.length ∧ fieldBE tail 0 4 = 1 ∧ tail.length < 16)
      ∨ (hdrLenAt tail 0 ≤ tail.length ∧
          (declaredAt tail 0 < hdrLenAt tail 0
            ∨ (tail.length < declaredAt tail 0 ∧ declaredAt tail 0 < 2 ^ 62)))) :
    ∃ msg, findAndParseSidx (concatBoxes pre ++ tail) = .error msg := by
  rw [findAndParseSidx_scan pre tail hpre hlen]
  have hl : (concatBoxes pre ++ tail).length = (concatBoxes pre).length + tail.length :=
    List.length_append _ _
  have et : concatBoxes pre ++ tail = concatBoxes pre ++ (tail ++ []) := by simp
  rcases hbad with h | h | h
  · rw [findAndParseSidxLoop, wrapInt64_of_range _ (by omega) (by omega)]
    exact ⟨_, if_pos (by omega)⟩
  · rw [loop_step _ _ _ hlen (by omega)]
    refine ⟨_, if_pos ⟨?_, by omega⟩⟩
    rw [et, show (concatBoxes pre).length = (concatBoxes pre).length + 0 from rfl,
      fieldBE_mid _ tail [] 0 4 (by omega)]
    exact h.2.1
  · have h8 := hdrLenAt_ge tail 0
    have hh2 : hdrLenAt tail 0 = if fieldBE tail 0 4 = 1 then 16 else 8 := rfl
    have hd : declaredAt (concatBoxes pre ++ tail) (concatBoxes pre).length = declaredAt tail 0 := by
      rw [et]; exact declaredAt_mid _ tail [] h.1
    have hh : hdrLenAt (concatBoxes pre ++ tail) (concatBoxes pre).length = hdrLenAt tail 0 := by
      rw [et]; exact hdrLenAt_mid _ tail [] (by omega)
    have hfs : fieldBE (concatBoxes pre ++ tail) (concatBoxes pre).length 4 = fieldBE tail 0 4 := by
      rw [et, show (concatBoxes pre).length = (concatBoxes pre).length + 0 from rfl,
        fieldBE_mid _ tail [] 0 4 (by omega)]
    rw [loop_step _ _ _ hlen (by omega), hd, hh, hfs,
      if_neg (by intro hc; rw [if_pos hc.1] at hh2; omega)]
    refine ⟨_, if_pos ?_⟩
    rcases h.2 with h2 | h2
    · exact Or.inl h2
    · right
      obtain ⟨h2a, h2b⟩ := h2
      clear h hh2 hd hh hfs et
      have e1 : uint64ToInt (declaredAt tail 0) = ((declaredAt tail 0 : Nat) : Int) :=
        wrapInt64_of_range _ (by omega) (by omega)
      have e2 : wrapInt64 (((concatBoxes pre).length : Nat) + ((declaredAt tail 0 : Nat) : Int))
          = ((concatBoxes pre).length : Nat) + ((declaredAt tail 0 : Nat) : Int) :=
        wrapInt64_of_range _ (by omega) (by omega)
      rw [e1, e2]
      omega

theorem loopingBuf_step0 (n : Nat) :
    findAndParseSidxLoop loopingBuf (n + 1) ((0 : Nat) : Int)
      = findAndParseSidxLoop loopingBuf n ((16 : Nat) : Int) := by
  rw [loop_step loopingBuf n 0 (by decide) (by decide), if_neg (by decide), if_neg (by decide),
    if_neg (by decide)]
  congr 1

theorem loopingBuf_step16 (n : Nat) :
    findAndParseSidxLoop loopingBuf (n + 1) ((16 : Nat) : Int)
      = findAndParseSidxLoop loopingBuf n ((0 : Nat) : Int) := by
  rw [loop_step loopingBuf n 16 (by decide) (by decide), if_neg (by decide), if_neg (by decide),
    if_neg (by decide)]
  congr 1

/-- A large size of `2^64-16` at offset 16 sends the scan back to offset 0: the loop never
ends, whatever the fuel. -/
theorem findAndParseSidx_backward_jump_diverges (fuel : Nat) :
    findAndParseSidxLoop loopingBuf fuel 0 = .outOfFuel
      ∧ findAndParseSidxLoop loopingBuf fuel 16 = .outOfFuel := by
  induction fuel with
  | zero => exact ⟨rfl, rfl⟩
  | succ n ih =>
    have h0 := loopingBuf_step0 n
    have h16 := loopingBuf_step16 n
    simp only [Nat.cast_zero, Nat.cast_ofNat] at h0 h16
    exact ⟨h0.trans ih.2, h16.trans ih.1⟩

/-- C1 (defect): on the 16-byte buffer `00 00 00 01 "sidx" FF×8` the declared large size
`2^64-1` exceeds the 16 remaining bytes, yet `findAndParseSidx` does not return an error:
`int(boxSize)` is `-1`, the bound check `i+int(boxSize) > len(buf)` passes and the slice
expression `buf[0:-1]` panics. -/
theorem findAndParseSidx_large_size_panics :
    declaredAt badLargeSidx 0 = 2 ^ 64 - 1 ∧ badLargeSidx.length = 16 ∧
      findAndParseSidx badLargeSidx = .panic := by
  decide

/-- C3: a buffer of well-formed non-sidx boxes followed by a well-formed, untruncated sidx box
(and any trailing bytes) is parsed successfully; the offset is the sum of the declared sizes of
the preceding boxes, the size is the declared size of the sidx box, the first offset is the
32-bit field at header+16 (version 0) or the 64-bit field at header+20 (version ≥ 1), and the
sizes are the low 31 bits of the first field of each of the `n` reference entries, in order. -/
theorem findAndParseSidx_finds (pre : List (List Byte)) (sidx rest : List Byte)
    (hpre : ∀ b ∈ pre, WellFormedBox b ∧ boxType b ≠ sidxTag)
    (hwf : WellFormedBox sidx) (htyp : boxType sidx = sidxTag)
    (hfull : sidxHdr sidx + 12 + (if sidxVersion sidx = 0 then 8 else 16) + 4
      + 12 * sidxRefCount sidx ≤ sidx.length)
    (hlen : (concatBoxes pre ++ (sidx ++ rest)).length < 2 ^ 62) :
    findAndParseSidx (concatBoxes pre ++ (sidx ++ rest))
      = .ok { firstOffset :=
                if sidxVersion sidx = 0 then fieldBE sidx (sidxHdr sidx + 16) 4
                else fieldBE sidx (sidxHdr sidx + 20) 8,
              referencedSizes := (List.range (sidxRefCount sidx)).map (fun j =>
                fieldBE sidx (sidxHdr sidx + 12 + (if sidxVersion sidx = 0 then 8 else 16) + 4
                  + 12 * j) 4 % 2 ^ 31),
              sidxBoxSize := boxDeclaredSize sidx,
              sidxBoxOffsetInBuf := (((pre.map boxDeclaredSize).sum : Nat) : Int) } := by
  rw [findAndParseSidx_scan pre _ hpre hlen, scan_step _ sidx rest _ hwf hlen, if_pos htyp,
    parseSidxBox_ok sidx _ _ hfull, concatBoxes_length_eq pre (fun b hb => (hpre b hb).1),
    show boxDeclaredSize sidx = sidx.length from hwf.2]
  rfl

theorem findAndParseSidx_finds_witness :
    findAndParseSidx (concatBoxes [freeBox] ++ (v0Sidx ++ [9, 9]))
      = .ok { firstOffset := 7, referencedSizes := [1000], sidxBoxSize := 44,
              sidxBoxOffsetInBuf := 12 } :=
  findAndParseSidx_finds [freeBox] v0Sidx [9, 9] (by decide) (by decide) (by decide)
    (by decide) (by decide)

theorem fieldBE_take (box : List Byte) (k p w : Nat) (h : p + w ≤ k) :
    fieldBE (box.take k) p w = fieldBE box p w := by
  unfold fieldBE
  rw [List.drop_take, List.take_take, Nat.min_eq_left (by omega)]

theorem getD_take (box : List Byte) (k p : Nat) (h : p < k) :
    (box.take k).getD p 0 = box.getD p 0 := by
  simp [List.getD, List.getElem?_take, h]

theorem parseSidxBox_cut (box : List Byte) (off : Int) (bs k : Nat)
    (hfull : sidxNeeded box ≤ box.length) (hk : sidxHdr box ≤ k) (hlt : k < sidxNeeded box) :
    ∃ msg, parseSidxBox (box.take k) off bs = .error msg := by
  have h8 := sidxHdr_ge box
  have hlenk : (box.take k).length = k := by rw [List.length_take]; omega
  have hH : sidxHdr (box.take k) = sidxHdr box := by
    unfold sidxHdr hdrLenAt
    rw [fieldBE_take box k 0 4 (by omega)]
  apply parseSidxBox_short
  · rw [hH, hlenk]; exact hk
  · rw [hlenk]
    have hN : ∀ b, sidxNeeded b = sidxHdr b + 12 + sidxVarLen b + 4 + 12 * sidxRefCount b :=
      fun _ => rfl
    have hvl : ∀ b, sidxVarLen b = 8 ∨ sidxVarLen b = 16 := by
      intro b; unfold sidxVarLen; split <;> simp
    rw [hN, hH]
    by_cases c1 : k < sidxHdr box + 24
    · have := hvl (box.take k); omega
    · have hV : sidxVarLen (box.take k) = sidxVarLen box := by
        unfold sidxVarLen sidxVersion
        rw [hH, getD_take box k _ (by omega)]
      rw [hV]
      by_cases c2 : k < sidxHdr box + 12 + sidxVarLen box + 4
      · omega
      · have hR : sidxRefCount (box.take k) = sidxRefCount box := by
          unfold sidxRefCount
          rw [hH, hV, fieldBE_take box k _ 2 (by omega)]
        rw [hR, ← hN]
        exact hlt

/-- C9: for a sidx box at least as long as its header, `parseSidxBox` returns an error (and
never reads outside the box: every out-of-range read is a panic in this model) when the box is
shorter than header + 12 + (8 or 16) + 4 + 12 * referenceCount, and succeeds otherwise; fields
cut off by the truncation read as zero in `sidxVersion` and `sidxRefCount`. In particular every
cut of a complete box at a length `k` between the header length and the complete length is
rejected, wherever `k` falls. -/
theorem parseSidxBox_truncation (box : List Byte) (off : Int) (boxSize : Nat)
    (hhdr : sidxHdr box ≤ box.length) :
    (box.length < sidxHdr box + 12 + (if sidxVersion box = 0 then 8 else 16) + 4
        + 12 * sidxRefCount box →
      ∃ msg, parseSidxBox box off boxSize = .error msg) ∧
    (sidxHdr box + 12 + (if sidxVersion box = 0 then 8 else 16) + 4
        + 12 * sidxRefCount box ≤ box.length →
      (∃ info, parseSidxBox box off boxSize = .ok info) ∧
      ∀ k, sidxHdr box ≤ k →
        k < sidxHdr box + 12 + (if sidxVersion box = 0 then 8 else 16) + 4
          + 12 * sidxRefCount box →
        ∃ msg, parseSidxBox (box.take k) off boxSize = .error msg) :=
  ⟨fun h => parseSidxBox_short box off boxSize hhdr h,
   fun h => ⟨⟨_, parseSidxBox_ok box off boxSize h⟩,
     fun k hk hlt => parseSidxBox_cut box off boxSize k h hk hlt⟩⟩

theorem parseSidxBox_truncation_witness :
    (∃ msg, parseSidxBox (v0Sidx.take 40) 0 44 = .error msg) ∧
    (∃ info, parseSidxBox v0Sidx 0 44 = .ok info) ∧
    (∃ msg, parseSidxBox (v0Sidx.take 21) 0 44 = .error msg) :=
  ⟨(parseSidxBox_truncation (v0Sidx.take 40) 0 44 (by decide)).1 (by decide),
   ((parseSidxBox_truncation v0Sidx 0 44 (by decide)).2 (by decide)).1,
   ((parseSidxBox_truncation v0Sidx 0 44 (by decide)).2 (by decide)).2 21 (by decide)
     (by decide)⟩

theorem wrapInt64_add_left (x y : Int) : wrapInt64 (wrapInt64 x + y) = wrapInt64 (x + y) := by
  unfold wrapInt64; omega

theorem wrapInt64_add_right (x y : Int) : wrapInt64 (x + wrapInt64 y) = wrapInt64 (x + y) := by
  unfold wrapInt64; omega

theorem wrapInt64_sub_one (x : Int) : wrapInt64 (wrapInt64 x - 1) = wrapInt64 (x - 1) := by
  unfold wrapInt64; omega

theorem indexSegmentLoop_front (env : IndexEnv) (henv : env.AllSucceed) (front : List Nat) :
    ∀ (tail : List Nat) (X : Int) (st : TrackState), (∀ s ∈ front, 0 < s) →
      ∃ file, indexSegmentLoop env (front ++ tail) (wrapInt64 X) st
        = indexSegmentLoop env tail (wrapInt64 (X + cumSize front front.length))
            { requests := st.requests ++ (List.range front.length).map (fun i =>
                (wrapInt64 (X + cumSize front i), wrapInt64 (X + cumSize front (i + 1) - 1))),
              file := file } := by
  induction front with
  | nil =>
    intro tail X st _
    exact ⟨st.file, by simp [cumSize]⟩
  | cons s front ih =>
    intro tail X st hpos
    have hs : 0 < s := hpos s (List.mem_cons_self _ _)
    obtain ⟨b, hb⟩ := Option.isSome_iff_exists.mp
      (henv.1 st.requests.length (wrapInt64 X) (wrapInt64 (wrapInt64 (wrapInt64 X + (s : Int)) - 1)))
    rw [List.cons_append, indexSegmentLoop]
    dsimp only
    rw [if_neg (by omega), hb]
    dsimp only
    rw [if_pos (henv.2 _)]
    have e1 : wrapInt64 (wrapInt64 (wrapInt64 (wrapInt64 X + (s : Int)) - 1) + 1)
        = wrapInt64 (X + s) := by unfold wrapInt64; omega
    have e2 : wrapInt64 (wrapInt64 (wrapInt64 X + (s : Int)) - 1) = wrapInt64 (X + s - 1) := by
      unfold wrapInt64; omega
    rw [e1, e2]
    obtain ⟨file, hf⟩ := ih tail (X + s)
      ⟨st.requests ++ [(wrapInt64 X, wrapInt64 (X + (s : Int) - 1))], st.file ++ b⟩
      (fun x hx => hpos x (List.mem_cons_of_mem _ hx))
    refine ⟨file, ?_⟩
    have hp : ∀ i, cumSize (s :: front) (i + 1) = (s : Int) + cumSize front i := by
      intro i; simp [cumSize]
    have h0 : cumSize (s :: front) 0 = 0 := by simp [cumSize]
    have h00 : cumSize front 0 = 0 := by simp [cumSize]
    have hX : X + (s : Int) + cumSize front front.length
        = X + cumSize (s :: front) (s :: front).length := by
      rw [List.length_cons, hp]; ring
    have hL : (st.requests ++ [(wrapInt64 X, wrapInt64 (X + (s : Int) - 1))]) ++
          (List.range front.length).map (fun i => (wrapInt64 (X + (s : Int) + cumSize front i),
            wrapInt64 (X + (s : Int) + cumSize front (i + 1) - 1)))
        = st.requests ++ (List.range (s :: front).length).map (fun i =>
            (wrapInt64 (X + cumSize (s :: front) i),
              wrapInt64 (X + cumSize (s :: front) (i + 1) - 1))) := by
      rw [List.length_cons, List.range_succ_eq_map, List.map_cons, List.map_map,
        List.append_assoc, List.singleton_append, h0, hp, h00]
      simp only [add_zero]
      congr 2
      apply List.map_congr_left
      intro i _
      simp only [Function.comp, hp, add_assoc]
    rw [hf, hX]
    exact congrArg (fun r => indexSegmentLoop env tail _ ⟨r, file⟩) hL

theorem indexPathSegStart_eq (sidxStart : Int) (sidx : sidxInfo) :
    indexPathSegStart sidxStart sidx
      = wrapInt64 (sidxStart + (sidx.sidxBoxSize : Int) + (sidx.firstOffset : Int)) := by
  unfold indexPathSegStart uint64ToInt wrapInt64; omega

theorem cumSize_append (front tail : List Nat) (i : Nat) (h : i ≤ front.length) :
    cumSize (front ++ tail) i = cumSize front i := by
  unfold cumSize
  rw [List.take_append_of_le_length h]

theorem cumSize_nonneg (sizes : List Nat) (i : Nat) : 0 ≤ cumSize sizes i := by
  unfold cumSize; omega

theorem cumSize_succ_le (sizes : List Nat) (i : Nat) :
    cumSize sizes i ≤ cumSize sizes (i + 1) := by
  unfold cumSize
  induction sizes generalizing i with
  | nil => simp
  | cons s t ih =>
    cases i with
    | zero => simp
    | succ i =>
      have := ih i
      simp only [List.take_succ_cons, List.sum_cons] at this ⊢
      push_cast at this ⊢
      omega

theorem cumSize_mono (sizes : List Nat) {i j : Nat} (h : i ≤ j) :
    cumSize sizes i ≤ cumSize sizes j := by
  induction h with
  | refl => exact le_refl _
  | step _ ih => exact le_trans ih (cumSize_succ_le _ _)

/-- When every reference size is positive and every range request and append succeeds,
the index-path loop requests exactly `n` ranges; in 64-bit arithmetic the `i`-th one is
`[B + F + (s_0+…+s_{i-1}), B + F + (s_0+…+s_i) - 1]` with `B = sidxStart + sidxBoxSize` and
`F = firstOffset`, each range starts one byte after the previous one ends, and when the sums
stay within `int64` the ranges relative to `B` are exactly
`[F + (s_0+…+s_{i-1}), F + (s_0+…+s_i) - 1]`. -/
theorem indexPathRequests_allSucceed (env : IndexEnv) (sidx : sidxInfo) (sidxStart : Int)
    (initBytes : List Byte) (henv : env.AllSucceed)
    (hpos : ∀ s ∈ sidx.referencedSizes, 0 < s) :
    indexPathRequests env sidx sidxStart initBytes
        = (List.range sidx.referencedSizes.length).map (fun i =>
            (wrapInt64 (sidxStart + sidx.sidxBoxSize + sidx.firstOffset
                + cumSize sidx.referencedSizes i),
             wrapInt64 (sidxStart + sidx.sidxBoxSize + sidx.firstOffset
                + cumSize sidx.referencedSizes (i + 1) - 1)))
    ∧ (indexPathRequests env sidx sidxStart initBytes).length = sidx.referencedSizes.length
    ∧ (∀ i, i + 1 < sidx.referencedSizes.length →
        ((indexPathRequests env sidx sidxStart initBytes).getD (i + 1) (0, 0)).1
          = wrapInt64 (((indexPathRequests env sidx sidxStart initBytes).getD i (0, 0)).2 + 1))
    ∧ (0 ≤ sidxStart →
        sidxStart + sidx.sidxBoxSize + sidx.firstOffset
          + cumSize sidx.referencedSizes sidx.referencedSizes.length < 2 ^ 63 →
        (indexPathRequests env sidx sidxStart initBytes).map
            (fun r => (r.1 - (sidxStart + sidx.sidxBoxSize), r.2 - (sidxStart + sidx.sidxBoxSize)))
          = (List.range sidx.referencedSizes.length).map (fun i =>
              ((sidx.firstOffset : Int) + cumSize sidx.referencedSizes i,
               (sidx.firstOffset : Int) + cumSize sidx.referencedSizes (i + 1) - 1))) := by
  have key : indexPathRequests env sidx sidxStart initBytes
      = (List.range sidx.referencedSizes.length).map (fun i =>
          (wrapInt64 (sidxStart + sidx.sidxBoxSize + sidx.firstOffset
              + cumSize sidx.referencedSizes i),
           wrapInt64 (sidxStart + sidx.sidxBoxSize + sidx.firstOffset
              + cumSize sidx.referencedSizes (i + 1) - 1))) := by
    obtain ⟨file, hf⟩ := indexSegmentLoop_front env henv sidx.referencedSizes []
      (sidxStart + sidx.sidxBoxSize + sidx.firstOffset) ⟨[], initBytes⟩ hpos
    unfold indexPathRequests
    rw [indexPathSegStart_eq]
    rw [List.append_nil] at hf
    rw [hf]
    simp [indexSegmentLoop]
  refine ⟨key, ?_, ?_, ?_⟩
  · rw [key, List.length_map, List.length_range]
  · intro i hi
    rw [key]
    rw [List.getD_eq_getElem _ _ (by rw [List.length_map, List.length_range]; omega),
      List.getD_eq_getElem _ _ (by rw [List.length_map, List.length_range]; omega)]
    simp only [List.getElem_map, List.getElem_range]
    unfold wrapInt64; omega
  · intro h0 hlt
    rw [key, List.map_map]
    apply List.map_congr_left
    intro i hi
    have hi2 : i < sidx.referencedSizes.length := List.mem_range.mp hi
    have m1 := cumSize_mono sidx.referencedSizes (Nat.le_of_lt hi2)
    have m2 : cumSize sidx.referencedSizes (i + 1)
        ≤ cumSize sidx.referencedSizes sidx.referencedSizes.length :=
      cumSize_mono sidx.referencedSizes (by omega)
    have m3 := cumSize_nonneg sidx.referencedSizes i
    have m4 := cumSize_succ_le sidx.referencedSizes i
    simp only [Function.comp]
    rw [wrapInt64_of_range _ (by omega) (by omega), wrapInt64_of_range _ (by omega) (by omega)]
    congr 1 <;> ring

theorem okEnv_allSucceed : okEnv.AllSucceed := ⟨fun _ _ _ => rfl, fun _ => rfl⟩

/-- When the first zero reference size is at position `k` and every range request and
append succeeds, the index-path loop requests exactly `k` ranges, those of references
`0..k-1`, and nothing for position `k` or later, whatever the later sizes are. -/
theorem indexPathRequests_zero_allSucceed (env : IndexEnv) (sidx : sidxInfo) (sidxStart : Int)
    (initBytes : List Byte) (front back : List Nat) (henv : env.AllSucceed)
    (hsz : sidx.referencedSizes = front ++ 0 :: back) (hpos : ∀ s ∈ front, 0 < s) :
    indexPathRequests env sidx sidxStart initBytes
        = (List.range front.length).map (fun i =>
            (wrapInt64 (sidxStart + sidx.sidxBoxSize + sidx.firstOffset
                + cumSize sidx.referencedSizes i),
             wrapInt64 (sidxStart + sidx.sidxBoxSize + sidx.firstOffset
                + cumSize sidx.referencedSizes (i + 1) - 1)))
    ∧ (indexPathRequests env sidx sidxStart initBytes).length = front.length := by
  have key : indexPathRequests env sidx sidxStart initBytes
      = (List.range front.length).map (fun i =>
          (wrapInt64 (sidxStart + sidx.sidxBoxSize + sidx.firstOffset
              + cumSize sidx.referencedSizes i),
           wrapInt64 (sidxStart + sidx.sidxBoxSize + sidx.firstOffset
              + cumSize sidx.referencedSizes (i + 1) - 1))) := by
    obtain ⟨file, hf⟩ := indexSegmentLoop_front env henv front (0 :: back)
      (sidxStart + sidx.sidxBoxSize + sidx.firstOffset) ⟨[], initBytes⟩ hpos
    unfold indexPathRequests
    rw [indexPathSegStart_eq, hsz, hf]
    simp only [indexSegmentLoop, Nat.cast_zero, le_refl, if_true, List.nil_append]
    apply List.map_congr_left
    intro i hi
    have hi2 : i < front.length := List.mem_range.mp hi
    rw [cumSize_append _ _ _ (Nat.le_of_lt hi2), cumSize_append _ _ _ (Nat.succ_le_of_lt hi2)]
  exact ⟨key, by rw [key, List.length_map, List.length_range]⟩

theorem plannedRanges_cons (X : Int) (s : Nat) (f : List Nat) :
    plannedRanges X (s :: f)
      = (wrapInt64 X, wrapInt64 (X + (s : Int) - 1)) :: plannedRanges (X + s) f := by
  have hp : ∀ i, cumSize (s :: f) (i + 1) = (s : Int) + cumSize f i := by
    intro i; simp [cumSize]
  have h0 : cumSize (s :: f) 0 = 0 := by simp [cumSize]
  have h00 : cumSize f 0 = 0 := by simp [cumSize]
  unfold plannedRanges
  rw [List.length_cons, List.range_succ_eq_map, List.map_cons, List.map_map, h0, hp, h00]
  simp only [add_zero]
  congr 1
  apply List.map_congr_left
  intro i _
  simp only [Function.comp, hp, add_assoc]

theorem plannedRanges_length (X : Int) (sizes : List Nat) :
    (plannedRanges X sizes).length = sizes.length := by
  simp [plannedRanges]

theorem plannedRanges_append_take (X : Int) (front tail : List Nat) :
    (plannedRanges X (front ++ tail)).take front.length = plannedRanges X front := by
  unfold plannedRanges
  rw [← List.map_take, List.length_append, List.take_range,
    Nat.min_eq_left (Nat.le_add_right _ _)]
  apply List.map_congr_left
  intro i hi
  have hi2 : i < front.length := List.mem_range.mp hi
  rw [cumSize_append _ _ _ (Nat.le_of_lt hi2), cumSize_append _ _ _ (Nat.succ_le_of_lt hi2)]

/-- In every run the loop requests an initial run of the planned ranges of the positive sizes
`front`: at least the first, all of them when every request and append succeeds, provided the
sizes `tail` that follow add no request. -/
theorem indexSegmentLoop_initial (env : IndexEnv) (front : List Nat) :
    ∀ (tail : List Nat) (X : Int) (st : TrackState), (∀ s ∈ front, 0 < s) →
      (∀ (Y : Int) (st' : TrackState), (indexSegmentLoop env tail Y st').1.requests = st'.requests) →
      ∃ m, m ≤ front.length ∧ (0 < front.length → 0 < m) ∧ (env.AllSucceed → m = front.length)
        ∧ (indexSegmentLoop env (front ++ tail) (wrapInt64 X) st).1.requests
            = st.requests ++ (plannedRanges X front).take m := by
  induction front with
  | nil =>
    intro tail X st _ htail
    exact ⟨0, le_refl _, fun h => absurd h (by simp), fun _ => rfl, by simp [htail]⟩
  | cons s front ih =>
    intro tail X st hpos htail
    have hs : 0 < s := hpos s (List.mem_cons_self _ _)
    have e1 : wrapInt64 (wrapInt64 (wrapInt64 (wrapInt64 X + (s : Int)) - 1) + 1)
        = wrapInt64 (X + s) := by unfold wrapInt64; omega
    have e2 : wrapInt64 (wrapInt64 (wrapInt64 X + (s : Int)) - 1) = wrapInt64 (X + s - 1) := by
      unfold wrapInt64; omega
    rw [List.cons_append, indexSegmentLoop, plannedRanges_cons]
    dsimp only
    rw [if_neg (by omega), e1, e2]
    cases hget : env.httpRangeGet st.requests.length (wrapInt64 X) (wrapInt64 (X + (s : Int) - 1)) with
    | none =>
      refine ⟨1, by simp, fun _ => Nat.one_pos, ?_, by simp⟩
      intro henv
      have := henv.1 st.requests.length (wrapInt64 X) (wrapInt64 (X + (s : Int) - 1))
      rw [hget] at this
      simp at this
    | some b =>
      dsimp only
      cases hcopy : env.copyOk st.requests.length with
      | false =>
        refine ⟨1, by simp, fun _ => Nat.one_pos, ?_, by simp⟩
        intro henv
        have := henv.2 st.requests.length
        rw [hcopy] at this
        simp at this
      | true =>
        obtain ⟨m, hm1, _, hm3, hm4⟩ := ih tail (X + s)
          ⟨st.requests ++ [(wrapInt64 X, wrapInt64 (X + (s : Int) - 1))], st.file ++ b⟩
          (fun x hx => hpos x (List.mem_cons_of_mem _ hx)) htail
        refine ⟨m + 1, by simp [hm1], fun _ => Nat.succ_pos _, fun henv => by simp [hm3 henv], ?_⟩
        simp only [if_true]
        rw [hm4]
        simp

/-- C2 (as stated) fails: with the all-positive sizes 1000, 2000, 1500 a run whose second range
request fails requests 2 ranges, not 3; and with first offset `2^63 - 1` the conversion to
`int64` wraps, so the only range requested is negative instead of starting at the first
offset. -/
theorem indexPath_ranges_counterexample :
    (∀ s ∈ sampleSidx.referencedSizes, 0 < s) ∧ sampleSidx.referencedSizes.length = 3
      ∧ (indexPathRequests (failAt 1) sampleSidx 100 []).length = 2
      ∧ (∀ s ∈ hugeOffsetSidx.referencedSizes, 0 < s)
      ∧ indexPathRequests okEnv hugeOffsetSidx 0 []
          = [(-9223372036854775765, -9223372036854774766)] := by
  decide

/-- C2 (amended): when every reference size is positive, the index-path loop requests, in every
run, an initial run of the `n` ranges `[B + F + (s_0+…+s_{i-1}), B + F + (s_0+…+s_i) - 1]`
(`B = sidxStart + sidxBoxSize`, `F = firstOffset`, 64-bit arithmetic): at least the first,
and all `n` when every range request and append succeeds; every requested range starts one
byte after the previous one ends; and when `sidxStart ≥ 0` and the sums stay below `2^63` the
ranges relative to `B` are exactly `[F + (s_0+…+s_{i-1}), F + (s_0+…+s_i) - 1]`. -/
theorem indexPath_ranges (env : IndexEnv) (sidx : sidxInfo) (sidxStart : Int)
    (initBytes : List Byte) (hpos : ∀ s ∈ sidx.referencedSizes, 0 < s) :
    (∃ m, m ≤ sidx.referencedSizes.length ∧ (0 < sidx.referencedSizes.length → 0 < m)
        ∧ (env.AllSucceed → m = sidx.referencedSizes.length)
        ∧ indexPathRequests env sidx sidxStart initBytes
            = (plannedRanges (sidxStart + sidx.sidxBoxSize + sidx.firstOffset)
                sidx.referencedSizes).take m)
    ∧ (∀ i, i + 1 < (indexPathRequests env sidx sidxStart initBytes).length →
        ((indexPathRequests env sidx sidxStart initBytes).getD (i + 1) (0, 0)).1
          = wrapInt64 (((indexPathRequests env sidx sidxStart initBytes).getD i (0, 0)).2 + 1))
    ∧ (0 ≤ sidxStart →
        sidxStart + sidx.sidxBoxSize + sidx.firstOffset
          + cumSize sidx.referencedSizes sidx.referencedSizes.length < 2 ^ 63 →
        ∃ m, m ≤ sidx.referencedSizes.length ∧ (0 < sidx.referencedSizes.length → 0 < m)
          ∧ (env.AllSucceed → m = sidx.referencedSizes.length)
          ∧ (indexPathRequests env sidx sidxStart initBytes).map
                (fun r => (r.1 - (sidxStart + sidx.sidxBoxSize),
                  r.2 - (sidxStart + sidx.sidxBoxSize)))
              = ((List.range sidx.referencedSizes.length).map (fun i =>
                  ((sidx.firstOffset : Int) + cumSize sidx.referencedSizes i,
                   (sidx.firstOffset : Int) + cumSize sidx.referencedSizes (i + 1) - 1))).take
                  m) := by
  obtain ⟨m, hm1, hm2, hm3, hm4⟩ := indexSegmentLoop_initial env sidx.referencedSizes []
    (sidxStart + sidx.sidxBoxSize + sidx.firstOffset) ⟨[], initBytes⟩ hpos
    (fun _ _ => by simp [indexSegmentLoop])
  have key : indexPathRequests env sidx sidxStart initBytes
      = (plannedRanges (sidxStart + sidx.sidxBoxSize + sidx.firstOffset)
          sidx.referencedSizes).take m := by
    unfold indexPathRequests
    rw [indexPathSegStart_eq]
    rw [List.append_nil] at hm4
    rw [hm4, List.nil_append]
  refine ⟨⟨m, hm1, hm2, hm3, key⟩, ?_, ?_⟩
  · intro i hi
    rw [key] at hi ⊢
    have hlen : ((plannedRanges (sidxStart + sidx.sidxBoxSize + sidx.firstOffset)
        sidx.referencedSizes).take m).length = m := by
      rw [List.length_take, plannedRanges_length]; omega
    rw [hlen] at hi
    rw [List.getD_eq_getElem _ _ (by rw [hlen]; omega),
      List.getD_eq_getElem _ _ (by rw [hlen]; omega)]
    simp only [plannedRanges, List.getElem_take, List.getElem_map, List.getElem_range]
    unfold wrapInt64; omega
  · intro h0 hlt
    refine ⟨m, hm1, hm2, hm3, ?_⟩
    rw [key, List.map_take]
    congr 1
    unfold plannedRanges
    rw [List.map_map]
    apply List.map_congr_left
    intro i hi
    have hi2 : i < sidx.referencedSizes.length := List.mem_range.mp hi
    have m1 := cumSize_mono sidx.referencedSizes (Nat.le_of_lt hi2)
    have m2 : cumSize sidx.referencedSizes (i + 1)
        ≤ cumSize sidx.referencedSizes sidx.referencedSizes.length :=
      cumSize_mono sidx.referencedSizes (by omega)
    have m3 := cumSize_nonneg sidx.referencedSizes i
    have m4 := cumSize_succ_le sidx.referencedSizes i
    simp only [Function.comp]
    rw [wrapInt64_of_range _ (by omega) (by omega), wrapInt64_of_range _ (by omega) (by omega)]
    congr 1 <;> ring

theorem indexPath_ranges_witness :
    (indexPathRequests okEnv sampleSidx 100 []).map (fun r => (r.1 - (100 + 44), r.2 - (100 + 44)))
        = [(0, 999), (1000, 2999), (3000, 4499)]
      ∧ ((indexPathRequests okEnv sampleSidx 100 []).getD 1 (0, 0)).1
        = wrapInt64 (((indexPathRequests okEnv sampleSidx 100 []).getD 0 (0, 0)).2 + 1) := by
  obtain ⟨m, _, _, hm, h⟩ := (indexPath_ranges okEnv sampleSidx 100 [] (by decide)).2.2
    (by decide) (by decide)
  rw [hm okEnv_allSucceed] at h
  exact ⟨h.trans (by decide),
    (indexPath_ranges okEnv sampleSidx 100 [] (by decide)).2.1 0 (by decide)⟩

/-- C8 (as stated) fails: with sizes 10, 20, 0, 30 the first zero is at position 2, and a run
whose first range request fails requests 1 range, not 2. -/
theorem indexPath_zero_truncates_counterexample :
    gapSidx.referencedSizes = [10, 20] ++ 0 :: [30]
      ∧ indexPathRequests (failAt 0) gapSidx 0 [] = [(52, 61)]
      ∧ (indexPathRequests (failAt 0) gapSidx 0 []).length ≠ 2 := by
  decide

/-- C8 (amended): when the first zero reference size is at position `k`, the index-path loop
requests, in every run, only ranges of references `0..k-1` (an initial run of them, at most
`k`, at least the first when `k > 0`) and nothing for position `k` or later, whatever the
later sizes are; when every range request and append succeeds it requests exactly those `k`
ranges. -/
theorem indexPath_zero_truncates (env : IndexEnv) (sidx : sidxInfo) (sidxStart : Int)
    (initBytes : List Byte) (front back : List Nat)
    (hsz : sidx.referencedSizes = front ++ 0 :: back) (hpos : ∀ s ∈ front, 0 < s) :
    (indexPathRequests env sidx sidxStart initBytes).length ≤ front.length
      ∧ (∃ m, m ≤ front.length ∧ (0 < front.length → 0 < m)
          ∧ (env.AllSucceed → m = front.length)
          ∧ indexPathRequests env sidx sidxStart initBytes
              = (plannedRanges (sidxStart + sidx.sidxBoxSize + sidx.firstOffset)
                  sidx.referencedSizes).take m)
      ∧ (env.AllSucceed →
          (indexPathRequests env sidx sidxStart initBytes).length = front.length
            ∧ indexPathRequests env sidx sidxStart initBytes
                = (List.range front.length).map (fun i =>
                    (wrapInt64 (sidxStart + sidx.sidxBoxSize + sidx.firstOffset
                        + cumSize sidx.referencedSizes i),
                     wrapInt64 (sidxStart + sidx.sidxBoxSize + sidx.firstOffset
                        + cumSize sidx.referencedSizes (i + 1) - 1)))) := by
  obtain ⟨m, hm1, hm2, hm3, hm4⟩ := indexSegmentLoop_initial env front (0 :: back)
    (sidxStart + sidx.sidxBoxSize + sidx.firstOffset) ⟨[], initBytes⟩ hpos
    (fun _ _ => by simp [indexSegmentLoop])
  have key : indexPathRequests env sidx sidxStart initBytes
      = (plannedRanges (sidxStart + sidx.sidxBoxSize + sidx.firstOffset)
          sidx.referencedSizes).take m := by
    unfold indexPathRequests
    rw [indexPathSegStart_eq, hsz, hm4, List.nil_append,
      ← plannedRanges_append_take _ front (0 :: back), List.take_take, Nat.min_eq_left hm1]
  have hlen : (indexPathRequests env sidx sidxStart initBytes).length = m := by
    rw [key, List.length_take, plannedRanges_length, hsz, List.length_append]
    omega
  refine ⟨by omega, ⟨m, hm1, hm2, hm3, key⟩, fun henv => ⟨by rw [hlen, hm3 henv], ?_⟩⟩
  exact (indexPathRequests_zero_allSucceed env sidx sidxStart initBytes front back henv hsz hpos).1

theorem indexPath_zero_truncates_witness :
    indexPathRequests okEnv gapSidx 0 [] = [(52, 61), (62, 81)]
      ∧ (indexPathRequests (failAt 1) gapSidx 0 []).length ≤ 2 :=
  ⟨((indexPath_zero_truncates okEnv gapSidx 0 [] [10, 20] [30] rfl (by decide)).2.2
      okEnv_allSucceed).2.trans (by decide),
   (indexPath_zero_truncates (failAt 1) gapSidx 0 [] [10, 20] [30] rfl (by decide)).1⟩

theorem filterLoop_eq_keepRec (rest : List String) :
    ∀ (m : SeenMap) (done acc : List String), SeenInv m done →
      filterLoop rest m acc = acc ++ keepRec done rest := by
  induction rest with
  | nil => intro m done acc _; simp [filterLoop, keepRec]
  | cons x xs ih =>
    intro m done acc hinv
    have hx := hinv x
    unfold filterLoop keepRec
    by_cases he : x = ""
    · have hinv2 : SeenInv m (x :: done) := by
        intro y
        rw [hinv y]
        by_cases hy : y = "" <;> simp [hy, he]
      rw [if_neg (by simp [he]), if_pos (Or.inl he), if_pos (Or.inl he), ih m (x :: done) _ hinv2]
      simp
    · by_cases hd : x ∈ done
      · have hinv2 : SeenInv m (x :: done) := by
          intro y
          rw [hinv y]
          by_cases hy : y = x <;> simp [hy, hd]
        rw [if_pos ⟨hd, he⟩] at hx
        rw [if_neg (by simp [hx]), if_neg (by simp [hx, he]), if_neg (by simp [he, hd]),
          ih m (x :: done) _ hinv2]
      · have hinv2 : SeenInv (m.set x true) (x :: done) := by
          intro y
          unfold SeenMap.set
          by_cases hy : y = x
          · simp [hy, he]
          · rw [if_neg hy, hinv y]; simp [hy]
        rw [if_neg (by simp [hd])] at hx
        rw [if_pos (by simp [hx, he]), if_pos (Or.inr hd), ih _ (x :: done) _ hinv2]
        simp

theorem filterSegments_eq_keepRec (l : List String) : filterSegments l = keepRec [] l := by
  unfold filterSegments
  rw [filterLoop_eq_keepRec l _ [] [] (by intro x; simp)]
  simp

theorem keepRec_idem (xs : List String) :
    ∀ (D D' : List String), (∀ a ∈ D', a ∈ D) → keepRec D' (keepRec D xs) = keepRec D xs := by
  induction xs with
  | nil => intro D D' _; simp [keepRec]
  | cons x xs ih =>
    intro D D' hsub
    rw [keepRec]
    by_cases hk : x = "" ∨ x ∉ D
    · have hk' : x = "" ∨ x ∉ D' := hk.imp id (fun h hc => h (hsub x hc))
      rw [if_pos hk, keepRec, if_pos hk', ih (x :: D) (x :: D')]
      intro a ha
      rcases List.mem_cons.mp ha with h | h
      · exact List.mem_cons.mpr (Or.inl h)
      · exact List.mem_cons.mpr (Or.inr (hsub a h))
    · rw [if_neg hk]
      exact ih (x :: D) D' (fun a ha => List.mem_cons.mpr (Or.inr (hsub a ha)))

theorem keepRec_sublist (xs : List String) : ∀ D, List.Sublist (keepRec D xs) xs := by
  induction xs with
  | nil => intro D; simp [keepRec]
  | cons x xs ih =>
    intro D
    rw [keepRec]
    split
    · exact (ih _).cons₂ x
    · exact (ih _).cons x

theorem keepRec_filter_empty (xs : List String) :
    ∀ D, (keepRec D xs).filter (fun s => s = "") = xs.filter (fun s => s = "") := by
  induction xs with
  | nil => intro D; simp [keepRec]
  | cons x xs ih =>
    intro D
    rw [keepRec]
    by_cases he : x = ""
    · rw [if_pos (Or.inl he)]
      simp [he, ih]
    · by_cases hd : x ∉ D
      · rw [if_pos (Or.inr hd)]; simp [he, ih]
      · rw [if_neg (by simp [he, hd])]; simp [he, ih]

theorem keepRec_count (xs : List String) (s : String) (hs : s ≠ "") :
    ∀ D, (keepRec D xs).count s ≤ 1 ∧ (s ∈ D → (keepRec D xs).count s = 0) := by
  induction xs with
  | nil => intro D; simp [keepRec]
  | cons x xs ih =>
    intro D
    rw [keepRec]
    by_cases hxs : x = s
    · subst hxs
      have h0 := (ih (x :: D)).2 (List.mem_cons_self _ _)
      by_cases hd : x ∈ D
      · rw [if_neg (by simp [hs, hd])]
        exact ⟨by omega, fun _ => h0⟩
      · rw [if_pos (Or.inr hd), List.count_cons_self]
        exact ⟨by omega, fun h => absurd h hd⟩
    · have h1 := ih (x :: D)
      have hc : ∀ l : List String, (x :: l).count s = l.count s := by
        intro l; rw [List.count_cons_of_ne (fun h => hxs h.symm)]
      split
      · rw [hc]
        exact ⟨h1.1, fun h => h1.2 (List.mem_cons_of_mem _ h)⟩
      · exact ⟨h1.1, fun h => h1.2 (List.mem_cons_of_mem _ h)⟩

theorem keepRec_mem (xs : List String) :
    ∀ D x, x ∈ xs → x ∈ keepRec D xs ∨ x ∈ D := by
  induction xs with
  | nil => intro D x h; simp at h
  | cons y ys ih =>
    intro D x hx
    rw [keepRec]
    rcases List.mem_cons.mp hx with h | h
    · subst h
      by_cases hk : x = "" ∨ x ∉ D
      · rw [if_pos hk]; exact Or.inl (List.mem_cons_self _ _)
      · right
        by_contra hc
        exact hk (Or.inr hc)
    · rcases ih (y :: D) x h with h1 | h1
      · left
        split
        · exact List.mem_cons_of_mem _ h1
        · exact h1
      · rcases List.mem_cons.mp h1 with h2 | h2
        · subst h2
          by_cases hk : x = "" ∨ x ∉ D
          · rw [if_pos hk]; exact Or.inl (List.mem_cons_self _ _)
          · right
            by_contra hc
            exact hk (Or.inr hc)
        · exact Or.inr h2

theorem keepSpec_eq_keepRec (xs : List String) :
    ∀ D : List String,
      (List.range xs.length).filterMap (fun j =>
          if xs.getD j "" = "" ∨ (xs.getD j "" ∉ D ∧ xs.getD j "" ∉ xs.take j)
          then some (xs.getD j "") else none)
        = keepRec D xs := by
  induction xs with
  | nil => intro D; simp [keepRec]
  | cons x xs ih =>
    intro D
    rw [List.length_cons, List.range_succ_eq_map, List.filterMap_cons, List.filterMap_map, keepRec,
      ← ih (x :: D)]
    have hrest : List.filterMap ((fun j =>
          if (x :: xs).getD j "" = "" ∨ ((x :: xs).getD j "" ∉ D ∧ (x :: xs).getD j "" ∉ (x :: xs).take j)
          then some ((x :: xs).getD j "") else none) ∘ Nat.succ) (List.range xs.length)
        = List.filterMap (fun j =>
          if xs.getD j "" = "" ∨ (xs.getD j "" ∉ x :: D ∧ xs.getD j "" ∉ xs.take j)
          then some (xs.getD j "") else none) (List.range xs.length) := by
      apply List.filterMap_congr
      intro j _
      simp only [Function.comp, List.getD_cons_succ, List.take_succ_cons, List.mem_cons, not_or]
      generalize xs.getD j "" = s
      have hiff : (s = "" ∨ s ∉ D ∧ ¬s = x ∧ s ∉ List.take j xs)
          ↔ (s = "" ∨ (¬s = x ∧ s ∉ D) ∧ s ∉ List.take j xs) := by tauto
      simp only [hiff]
    rw [hrest]
    by_cases hk : x = "" ∨ x ∉ D
    · rw [if_pos hk]
      have : (if (x :: xs).getD 0 "" = "" ∨ ((x :: xs).getD 0 "" ∉ D ∧
          (x :: xs).getD 0 "" ∉ (x :: xs).take 0) then some ((x :: xs).getD 0 "") else none)
          = some x := by
        simp only [List.getD_cons_zero, List.take_zero, List.not_mem_nil, not_false_eq_true,
          and_true]
        rw [if_pos hk]
      rw [this]
    · rw [if_neg hk]
      have : (if (x :: xs).getD 0 "" = "" ∨ ((x :: xs).getD 0 "" ∉ D ∧
          (x :: xs).getD 0 "" ∉ (x :: xs).take 0) then some ((x :: xs).getD 0 "") else none)
          = none := by
        simp only [List.getD_cons_zero, List.take_zero, List.not_mem_nil, not_false_eq_true,
          and_true]
        rw [if_neg hk]
      rw [this]

theorem keepFirstOccurrences_eq_keepRec (l : List String) :
    keepFirstOccurrences l = keepRec [] l := by
  rw [← keepSpec_eq_keepRec l []]
  unfold keepFirstOccurrences
  apply List.filterMap_congr
  intro j _
  simp

/-- C5: filtering an already filtered segment list returns the same list. -/
theorem filterSegments_idempotent (segments : List String) :
    filterSegments (filterSegments segments) = filterSegments segments := by
  rw [filterSegments_eq_keepRec (filterSegments segments), filterSegments_eq_keepRec segments]
  exact keepRec_idem segments [] [] (fun _ h => h)

/-- C6: the filtered segment list is the input with exactly the later occurrences of non-empty
values removed: it keeps position `i` iff the segment there is empty or has no earlier
occurrence; it is a sublist of the input (nothing reordered), every non-empty value occurs at
most once, every value of the input still occurs, and the empty segments are all kept. -/
theorem filterSegments_spec (segments : List String) :
    filterSegments segments = keepFirstOccurrences segments
    ∧ List.Sublist (filterSegments segments) segments
    ∧ (∀ s, s ≠ "" → (filterSegments segments).count s ≤ 1)
    ∧ (∀ s, s ∈ segments → s ∈ filterSegments segments)
    ∧ (filterSegments segments).filter (fun s => s = "") = segments.filter (fun s => s = "") := by
  rw [filterSegments_eq_keepRec, keepFirstOccurrences_eq_keepRec]
  refine ⟨rfl, keepRec_sublist _ _, fun s hs => (keepRec_count segments s hs []).1, ?_,
    keepRec_filter_empty _ _⟩
  intro s hs
  rcases keepRec_mem segments [] s hs with h | h
  · exact h
  · simp at h

theorem filterSegments_spec_witness :
    filterSegments ["", "a", "b", "a", "", "c", "b"] = ["", "a", "b", "", "c"]
      ∧ (filterSegments ["", "a", "b", "a", "", "c", "b"]).count "a" ≤ 1
      ∧ "c" ∈ filterSegments ["", "a", "b", "a", "", "c", "b"] :=
  ⟨(filterSegments_spec ["", "a", "b", "a", "", "c", "b"]).1.trans (by decide),
   (filterSegments_spec ["", "a", "b", "a", "", "c", "b"]).2.2.1 "a" (by decide),
   (filterSegments_spec ["", "a", "b", "a", "", "c", "b"]).2.2.2.1 "c" (by decide)⟩

/-- The model of `strconv.ParseInt` on typical inputs: values, signs, syntax errors (value 0)
and range errors (value clamped to the nearest bound). -/
theorem ParseInt_examples :
    ParseInt "100" = (100, none) ∧ ParseInt "-5" = (-5, none) ∧ ParseInt "+7" = (7, none)
      ∧ ParseInt "" = (0, some .malformed) ∧ ParseInt "12a" = (0, some .malformed)
      ∧ ParseInt "-" = (0, some .malformed) ∧ ParseInt " 1" = (0, some .malformed)
      ∧ ParseInt "9223372036854775807" = (2 ^ 63 - 1, none)
      ∧ ParseInt "9223372036854775808" = (2 ^ 63 - 1, some .outOfRange)
      ∧ ParseInt "-9223372036854775808" = (-2 ^ 63, none)
      ∧ ParseInt "-9223372036854775809" = (-2 ^ 63, some .outOfRange)
      ∧ ParseInt "99999999999999999999" = (2 ^ 63 - 1, some .outOfRange)
      ∧ ParseInt "99999999999999999999x" = (2 ^ 63 - 1, some .outOfRange) := by
  decide

theorem bandwidthAt_cons_zero (x : String) (xs : List String) :
    bandwidthAt (x :: xs) 0 = (ParseInt x).1 := rfl

theorem bandwidthAt_cons_succ (x : String) (xs : List String) (k : Nat) :
    bandwidthAt (x :: xs) (k + 1) = bandwidthAt xs k := rfl

/-- Invariant of the selection loop: the returned bandwidth bounds the initial one and every
value read, and the returned index is either the initial one (nothing exceeded the initial
bandwidth) or the first position attaining the returned bandwidth. -/
theorem selectLoop_spec (rs : List String) :
    ∀ (i best : Nat) (bw : Int),
      bw ≤ (selectLoop rs i best bw).2
      ∧ (∀ j, j < rs.length → bandwidthAt rs j ≤ (selectLoop rs i best bw).2)
      ∧ (((selectLoop rs i best bw).1 = best ∧ (selectLoop rs i best bw).2 = bw
            ∧ ∀ j, j < rs.length → bandwidthAt rs j ≤ bw)
          ∨ (∃ k, k < rs.length ∧ (selectLoop rs i best bw).1 = i + k
              ∧ bandwidthAt rs k = (selectLoop rs i best bw).2
              ∧ bw < (selectLoop rs i best bw).2
              ∧ ∀ j, j < k → bandwidthAt rs j < (selectLoop rs i best bw).2)) := by
  induction rs with
  | nil =>
    intro i best bw
    simp [selectLoop]
  | cons x xs ih =>
    intro i best bw
    rw [selectLoop]
    by_cases hgt : (ParseInt x).1 > bw
    · rw [if_pos hgt]
      obtain ⟨h1, h2, h3⟩ := ih (i + 1) i (ParseInt x).1
      refine ⟨by omega, ?_, Or.inr ?_⟩
      · intro j hj
        cases j with
        | zero => rw [bandwidthAt_cons_zero]; exact h1
        | succ j =>
          rw [bandwidthAt_cons_succ]
          exact h2 j (by simpa using hj)
      · rcases h3 with ⟨e1, e2, _⟩ | ⟨k, hk, e1, e2, e3, e4⟩
        · refine ⟨0, by simp, by rw [e1]; rfl, by rw [e2]; rfl, by rw [e2]; exact hgt, ?_⟩
          intro j hj; omega
        · refine ⟨k + 1, by simpa using hk, by rw [e1]; omega, by rw [bandwidthAt_cons_succ]; exact e2,
            by omega, ?_⟩
          intro j hj
          cases j with
          | zero => rw [bandwidthAt_cons_zero]; exact e3
          | succ j => rw [bandwidthAt_cons_succ]; exact e4 j (by omega)
    · rw [if_neg hgt]
      obtain ⟨h1, h2, h3⟩ := ih (i + 1) best bw
      refine ⟨h1, ?_, ?_⟩
      · intro j hj
        cases j with
        | zero => rw [bandwidthAt_cons_zero]; omega
        | succ j =>
          rw [bandwidthAt_cons_succ]
          exact h2 j (by simpa using hj)
      · rcases h3 with ⟨e1, e2, e3⟩ | ⟨k, hk, e1, e2, e3, e4⟩
        · refine Or.inl ⟨e1, e2, ?_⟩
          intro j hj
          cases j with
          | zero => rw [bandwidthAt_cons_zero]; omega
          | succ j =>
            rw [bandwidthAt_cons_succ]
            exact e3 j (by simpa using hj)
        · refine Or.inr ⟨k + 1, by simpa using hk, by rw [e1]; omega,
            by rw [bandwidthAt_cons_succ]; exact e2, e3, ?_⟩
          intro j hj
          cases j with
          | zero => rw [bandwidthAt_cons_zero]; omega
          | succ j => rw [bandwidthAt_cons_succ]; exact e4 j (by omega)

theorem mem_bandwidthAt (l : List String) (t : String) (ht : t ∈ l) :
    ∃ j, j < l.length ∧ bandwidthAt l j = (ParseInt t).1 := by
  obtain ⟨n, hn, rfl⟩ := List.getElem_of_mem ht
  exact ⟨n, hn, by unfold bandwidthAt; rw [List.getD_eq_getElem _ _ hn]⟩

/-- C4 (as stated) fails: the bandwidths "-5" and "-3" both parse as integers, the loop
returns index 0, and index 0 does not hold the maximum. -/
theorem selectBest_negative_counterexample :
    (∀ s ∈ ["-5", "-3"], (ParseInt s).2 = none)
      ∧ selectBest ["-5", "-3"] = 0
      ∧ ¬ IsLowestMax ["-5", "-3"] (selectBest ["-5", "-3"]) := by
  decide

/-- C4 (amended): for a non-empty list of bandwidth strings that all parse as integers, at least
one of them non-negative, the selection loop returns an index holding the maximum bandwidth,
and the lowest such index. -/
theorem selectBest_lowest_max (bandwidths : List String) (_hne : bandwidths ≠ [])
    (_hparse : ∀ s ∈ bandwidths, (ParseInt s).2 = none)
    (hnn : ∃ s ∈ bandwidths, 0 ≤ (ParseInt s).1) :
    IsLowestMax bandwidths (selectBest bandwidths) := by
  obtain ⟨t, ht, hv⟩ := hnn
  obtain ⟨j, hj, hjv⟩ := mem_bandwidthAt bandwidths t ht
  obtain ⟨_, h2, h3⟩ := selectLoop_spec bandwidths 0 0 (-1)
  unfold selectBest
  rcases h3 with ⟨_, _, e3⟩ | ⟨k, hk, e1, e2, _, e4⟩
  · have := e3 j hj
    omega
  · rw [e1, Nat.zero_add]
    refine ⟨hk, ?_, ?_⟩
    · intro j hj; rw [e2]; exact h2 j hj
    · intro j hj; rw [e2]; exact e4 j hj

theorem selectBest_lowest_max_witness :
    IsLowestMax ["300", "900", "900", "-1"] (selectBest ["300", "900", "900", "-1"])
      ∧ selectBest ["300", "900", "900", "-1"] = 1 :=
  ⟨selectBest_lowest_max ["300", "900", "900", "-1"] (by decide) (by decide)
    ⟨"300", by decide, by decide⟩, by decide⟩

/-- The loop only appends to the list of requested ranges. -/
theorem indexSegmentLoop_requests_extend (env : IndexEnv) (sizes : List Nat) :
    ∀ (segStart : Int) (st : TrackState),
      ∃ extra, (indexSegmentLoop env sizes segStart st).1.requests = st.requests ++ extra := by
  induction sizes with
  | nil => intro segStart st; exact ⟨[], by simp [indexSegmentLoop]⟩
  | cons s rest ih =>
    intro segStart st
    rw [indexSegmentLoop]
    dsimp only
    split
    · exact ⟨[], by simp⟩
    · split
      · exact ⟨_, rfl⟩
      · split
        · rename_i b _ _
          obtain ⟨extra, he⟩ := ih (wrapInt64 (wrapInt64 (wrapInt64 (segStart + (s : Int)) - 1) + 1))
            ⟨st.requests ++ [(segStart, wrapInt64 (wrapInt64 (segStart + (s : Int)) - 1))],
              st.file ++ b⟩
          exact ⟨(segStart, wrapInt64 (wrapInt64 (segStart + (s : Int)) - 1)) :: extra,
            by rw [he]; simp⟩
        · exact ⟨_, rfl⟩

theorem indexPathRequests_head (env : IndexEnv) (sidx : sidxInfo) (sidxStart : Int)
    (initBytes : List Byte) (s : Nat) (rest : List Nat)
    (hs : sidx.referencedSizes = s :: rest) (hpos : 0 < s) :
    (indexPathRequests env sidx sidxStart initBytes).head?
      = some (indexPathSegStart sidxStart sidx,
          wrapInt64 (wrapInt64 (indexPathSegStart sidxStart sidx + (s : Int)) - 1)) := by
  unfold indexPathRequests
  rw [hs, indexSegmentLoop]
  dsimp only
  rw [if_neg (by omega)]
  split
  · rfl
  · split
    · rename_i b _ _
      obtain ⟨extra, he⟩ := indexSegmentLoop_requests_extend env rest
        (wrapInt64 (wrapInt64 (wrapInt64 (indexPathSegStart sidxStart sidx + (s : Int)) - 1) + 1))
        ⟨[] ++ [(indexPathSegStart sidxStart sidx,
            wrapInt64 (wrapInt64 (indexPathSegStart sidxStart sidx + (s : Int)) - 1))],
          initBytes ++ b⟩
      rw [he]
      rfl
    · rfl

/-- C11 (as stated) fails: with a 12-byte `free` box before the 44-byte sidx box in the index
buffer and an index range starting at 100, the sidx box is found (first offset 7) and the first
segment range requested starts at 163 = 100 + 12 + 44 + 7, not at 100 + 44 + 7 = 151. -/
theorem indexPath_first_start_counterexample :
    findAndParseSidx (freeBox ++ v0Sidx)
        = .ok { firstOffset := 7, referencedSizes := [1000], sidxBoxSize := 44,
                sidxBoxOffsetInBuf := 12 }
      ∧ indexPathTrack okEnv 100 (freeBox ++ v0Sidx) [] = .ok [(163, 1162)]
      ∧ (163 : Int) ≠ 100 + 44 + 7 := by
  decide

/-- C11 (amended): when `findAndParseSidx` finds a sidx box in the index buffer and its first
reference size is positive, the first segment range requested on the index path starts, in
64-bit arithmetic, at `indexStart + sidxBoxOffsetInBuf + sidxBoxSize + firstOffset`; this is the
exact integer when `indexStart ≥ 0` and the sum is below `2^63`, and it is
`indexStart + sidxBoxSize + firstOffset` when the sidx box is the first box of the buffer. -/
theorem indexPath_first_start (env : IndexEnv) (indexStart : Int) (idxBuf initBytes : List Byte)
    (sidx : sidxInfo) (s : Nat) (rest : List Nat)
    (hfound : findAndParseSidx idxBuf = .ok sidx)
    (hs : sidx.referencedSizes = s :: rest) (hpos : 0 < s) :
    ∃ reqs segEnd, indexPathTrack env indexStart idxBuf initBytes = .ok reqs
      ∧ reqs.head? = some (wrapInt64 (indexStart + sidx.sidxBoxOffsetInBuf + sidx.sidxBoxSize
          + sidx.firstOffset), segEnd)
      ∧ (0 ≤ indexStart → 0 ≤ sidx.sidxBoxOffsetInBuf →
          indexStart + sidx.sidxBoxOffsetInBuf + sidx.sidxBoxSize + sidx.firstOffset < 2 ^ 63 →
          reqs.head? = some (indexStart + sidx.sidxBoxOffsetInBuf + sidx.sidxBoxSize
            + sidx.firstOffset, segEnd))
      ∧ (0 ≤ indexStart → sidx.sidxBoxOffsetInBuf = 0 →
          indexStart + sidx.sidxBoxSize + sidx.firstOffset < 2 ^ 63 →
          reqs.head? = some (indexStart + sidx.sidxBoxSize + sidx.firstOffset, segEnd)) := by
  have hst : indexPathSegStart (wrapInt64 (indexStart + sidx.sidxBoxOffsetInBuf)) sidx
      = wrapInt64 (indexStart + sidx.sidxBoxOffsetInBuf + sidx.sidxBoxSize + sidx.firstOffset) := by
    unfold indexPathSegStart uint64ToInt wrapInt64; omega
  have hhead := indexPathRequests_head env sidx (wrapInt64 (indexStart + sidx.sidxBoxOffsetInBuf))
    initBytes s rest hs hpos
  rw [hst] at hhead
  refine ⟨_, _, ?_, hhead, ?_, ?_⟩
  · unfold indexPathTrack countSegmentsFromSegmentBase
    rw [hfound]
  · intro h0 h1 h2
    rw [hhead, wrapInt64_of_range _ (by omega) (by omega)]
  · intro h0 h1 h2
    rw [hhead, h1, wrapInt64_of_range _ (by omega) (by omega)]
    simp

theorem indexPath_first_start_witness :
    ∃ reqs segEnd, indexPathTrack okEnv 100 (freeBox ++ v0Sidx) [] = .ok reqs
      ∧ reqs.head? = some (100 + 12 + 44 + 7, segEnd) := by
  obtain ⟨reqs, segEnd, h1, _, h3, _⟩ := indexPath_first_start okEnv 100 (freeBox ++ v0Sidx) []
    { firstOffset := 7, referencedSizes := [1000], sidxBoxSize := 44, sidxBoxOffsetInBuf := 12 }
    1000 [] (by decide) rfl (by decide)
  exact ⟨reqs, segEnd, h1, h3 (by decide) (by decide) (by decide)⟩

theorem tempName_ne (s : String) : tempName s ≠ s := by
  intro h
  have := congrArg String.length h
  simp [tempName, String.length_append] at this
  exact absurd this (by decide)

theorem create_of_not_track (st : PoolState) (name : String) (b : List Byte)
    (h : st.dir name ≠ some .track) :
    st.create name b = { st with dir := st.dir.write name (.data b) } := by
  unfold PoolState.create
  split
  · rename_i heq
    exact absurd heq h
  · rfl

theorem rename_of_some (st : PoolState) (old new : String) (e : DirEntry)
    (h : st.dir old = some e) :
    st.rename old new = { st with dir := (st.dir.remove old).write new e } := by
  unfold PoolState.rename
  rw [h]

/-- Effect of one worker whose temporary name is not a name of the track file: the track
contents are kept, the slot is set on success, and of the directory only the worker's file
name and temporary name change. -/
theorem worker_effect (mt ad : String) (sn : Int) (fetch : Nat → Download) (j : Nat)
    (st : PoolState) (htr : st.dir (tempName (segName mt ad sn j)) ≠ some .track) :
    (worker mt ad sn fetch j st).track = st.track
      ∧ (worker mt ad sn fetch j st).files
          = (if (fetch j).isDone then st.files.set j (segName mt ad sn j) else st.files)
      ∧ (∀ x, x ≠ segName mt ad sn j → x ≠ tempName (segName mt ad sn j) →
          (worker mt ad sn fetch j st).dir x = st.dir x)
      ∧ (∀ b r, fetch j = .done b r →
          (worker mt ad sn fetch j st).dir (segName mt ad sn j) = some (.data b))
      ∧ (worker mt ad sn fetch j st).dir (segName mt ad sn j) ≠ some .track
      ∧ (worker mt ad sn fetch j st).dir (tempName (segName mt ad sn j)) ≠ some .track := by
  have hnt := tempName_ne (segName mt ad sn j)
  have hnt' : segName mt ad sn j ≠ tempName (segName mt ad sn j) := fun e => hnt e.symm
  have h1 : (st.remove (segName mt ad sn j)).dir (tempName (segName mt ad sn j))
      ≠ some .track := by
    simp only [PoolState.remove, Dir.remove, if_neg hnt]
    exact htr
  unfold worker
  dsimp only
  cases hf : fetch j with
  | failed =>
    simp only [PoolState.remove, Dir.remove, Download.isDone]
    refine ⟨by simp, by simp, ?_, ?_, ?_, ?_⟩
    · intro x hx _
      simp [hx]
    · intro b r h
      cases h
    · simp
    · simp [hnt, htr]
  | failedAfterCreate left =>
    dsimp only
    rw [create_of_not_track _ _ _ h1]
    cases left with
    | none =>
      simp only [PoolState.remove, Dir.remove, Dir.write, Download.isDone]
      refine ⟨by simp, by simp, ?_, ?_, ?_, ?_⟩
      · intro x hx hx2
        simp [hx, hx2]
      · intro b r h
        cases h
      · simp [hnt']
      · simp
    | some g =>
      dsimp only
      rw [create_of_not_track]
      swap
      · simp [PoolState.remove, Dir.remove, hnt']
      simp only [PoolState.remove, Dir.remove, Dir.write, Download.isDone]
      refine ⟨by simp, by simp, ?_, ?_, ?_, ?_⟩
      · intro x hx hx2
        simp [hx, hx2]
      · intro b r h
        cases h
      · simp
      · simp [hnt]
  | done b renamed =>
    dsimp only
    rw [create_of_not_track _ _ _ h1]
    cases renamed with
    | true =>
      simp only [if_true]
      rw [rename_of_some _ _ _ (.data b)]
      swap
      · simp [PoolState.remove, Dir.remove, Dir.write, hnt]
      simp only [PoolState.remove, Dir.remove, Dir.write, Download.isDone]
      refine ⟨by simp, by simp, ?_, ?_, ?_, ?_⟩
      · intro x hx hx2
        simp [hx, hx2]
      · intro b' r h
        cases h
        simp
      · simp
      · simp [hnt]
    | false =>
      simp only [Bool.false_eq_true, if_false]
      rw [create_of_not_track]
      swap
      · simp [PoolState.remove, Dir.remove]
      simp only [PoolState.remove, Dir.remove, Dir.write, Download.isDone]
      refine ⟨by simp, by simp, ?_, ?_, ?_, ?_⟩
      · intro x hx hx2
        simp [hx, hx2]
      · intro b' r h
        cases h
        simp [hnt']
      · simp [hnt']
      · simp

theorem digitChar_ne_dot (d : Nat) (h : d < 10) : Nat.digitChar d ≠ '.' := by
  interval_cases d <;> decide

theorem toDigitsCore_no_dot (fuel : Nat) :
    ∀ (n : Nat) (acc : List Char), (∀ c ∈ acc, c ≠ '.') →
      ∀ c ∈ Nat.toDigitsCore 10 fuel n acc, c ≠ '.' := by
  induction fuel with
  | zero =>
    intro n acc hacc c hc
    simp only [Nat.toDigitsCore] at hc
    exact hacc c hc
  | succ fuel ih =>
    intro n acc hacc c hc
    have hd := digitChar_ne_dot (n % 10) (Nat.mod_lt _ (by decide))
    have hacc' : ∀ c ∈ Nat.digitChar (n % 10) :: acc, c ≠ '.' := by
      intro x hx
      rcases List.mem_cons.mp hx with h | h
      · rw [h]; exact hd
      · exact hacc x h
    simp only [Nat.toDigitsCore] at hc
    split at hc
    · exact hacc' c hc
    · exact ih _ _ hacc' c hc

/-- The decimal numeral of `strconv.Itoa` has no dot. -/
theorem Itoa_no_dot (n : Int) : ∀ c ∈ (Itoa n).toList, c ≠ '.' := by
  have hrepr : ∀ m : Nat, ∀ c ∈ (Nat.repr m).toList, c ≠ '.' := by
    intro m c hc
    exact toDigitsCore_no_dot _ _ [] (fun _ h => absurd h (List.not_mem_nil _)) c hc
  intro c hc
  unfold Itoa at hc
  split at hc
  · rw [String.toList, String.data_append] at hc
    rcases List.mem_append.mp hc with h | h
    · have : c = '-' := by simpa using h
      rw [this]; decide
    · exact hrepr _ c h
  · exact hrepr _ c hc

/-- Replacing instances of `old` by `new` keeps the number of occurrences of a character that
is neither in `old` nor in `new`. -/
theorem replaceAllAux_count (old new : List Char) (c : Char) (hne : old ≠ [])
    (hold : ∀ x ∈ old, x ≠ c) (hnew : ∀ x ∈ new, x ≠ c) :
    ∀ (l : List Char) (skip : Nat), (∀ x ∈ l.take skip, x ≠ c) →
      (replaceAllAux old new skip l).count c = l.count c := by
  intro l
  induction l with
  | nil =>
    intro skip _
    simp [replaceAllAux]
  | cons a cs ih =>
    intro skip hskip
    cases skip with
    | succ k =>
      have ha : a ≠ c := hskip a (by simp)
      rw [replaceAllAux, List.count_cons_of_ne (Ne.symm ha)]
      exact ih k (fun x hx => hskip x (by simp [hx]))
    | zero =>
      rw [replaceAllAux]
      split
      · rename_i hp
        rw [List.isPrefixOf_iff_prefix] at hp
        obtain ⟨t, ht⟩ := hp
        cases old with
        | nil => exact absurd rfl hne
        | cons o os =>
          simp only [List.cons_append, List.cons.injEq] at ht
          obtain ⟨hoa, hcs⟩ := ht
          have ha : a ≠ c := by rw [← hoa]; exact hold o (by simp)
          have hnc : new.count c = 0 := List.count_eq_zero.mpr (fun h => hnew c h rfl)
          rw [List.count_append, hnc, Nat.zero_add, List.count_cons_of_ne (Ne.symm ha)]
          apply ih
          intro x hx
          have : x ∈ os := by
            rw [← hcs] at hx
            simp only [List.length_cons, Nat.add_sub_cancel, List.take_left'] at hx
            exact hx
          exact hold x (by simp [this])
      · by_cases ha : a = c
        · subst ha
          rw [List.count_cons_self, List.count_cons_self, ih 0 (by simp)]
        · rw [List.count_cons_of_ne (Ne.symm ha), List.count_cons_of_ne (Ne.symm ha)]
          exact ih 0 (by simp)

theorem ReplaceAll_count (s old new : String) (c : Char) (hne : old.toList ≠ [])
    (hold : ∀ x ∈ old.toList, x ≠ c) (hnew : ∀ x ∈ new.toList, x ≠ c) :
    (ReplaceAll s old new).toList.count c = s.toList.count c := by
  unfold ReplaceAll
  exact replaceAllAux_count old.toList new.toList c hne hold hnew s.toList 0 (by simp)

/-- The temporary name of a segment file is not the file name of a segment: the names differ
only in the numeral, which has no dot. -/
theorem tempName_ne_segName (mt ad : String) (sn : Int) (i j : Nat) :
    tempName (segName mt ad sn i) ≠ segName mt ad sn j := by
  have hcount : ∀ k, (segName mt ad sn k).toList.count '.'
      = (ReplaceAll mt "$RepresentationID$" ad).toList.count '.' := by
    intro k
    unfold segName
    exact ReplaceAll_count _ _ _ _ (by decide) (by decide) (Itoa_no_dot _)
  intro h
  have h2 := congrArg (fun s => s.toList.count '.') h
  simp only [tempName, String.toList, String.data_append, List.count_append] at h2
  have hi := hcount i
  have hj := hcount j
  simp only [String.toList] at hi hj
  rw [hi, hj] at h2
  have hdot : List.count '.' ['.', 't', 'm', 'p'] = 1 := by decide
  rw [hdot] at h2
  omega

theorem map_range_set (n j : Nat) (f : Nat → String) (v : String) :
    ((List.range n).map f).set j v = (List.range n).map (fun i => if i = j then v else f i) := by
  apply List.ext_getElem
  · simp
  · intro i h1 h2
    simp only [List.getElem_set, List.getElem_map, List.getElem_range]
    by_cases h : j = i
    · simp [h]
    · have h' : ¬ i = j := fun e => h e.symm
      simp [h, h']

/-- One more worker, not yet in `done`, keeps the invariant when the file names are distinct
and neither a file name nor a temporary name is the init name or another file name. -/
theorem worker_invariant (mt ad : String) (sn : Int) (n : Nat) (fetch : Nat → Download)
    (init : String) (initBytes : List Byte)
    (hinj : ∀ i j, i < n → j < n → segName mt ad sn i = segName mt ad sn j → i = j)
    (hinit : ∀ i, i < n → segName mt ad sn i ≠ init)
    (htmpInit : ∀ i, i < n → tempName (segName mt ad sn i) ≠ init)
    (htmpSeg : ∀ i j, i < n → j < n → tempName (segName mt ad sn i) ≠ segName mt ad sn j)
    (done : List Nat) (j : Nat) (st : PoolState) (hj : j < n) (hjd : j ∉ done)
    (hdone : ∀ i, i ∈ done → i < n)
    (hinv : PoolInv mt ad sn n fetch init initBytes done st) :
    PoolInv mt ad sn n fetch init initBytes (j :: done) (worker mt ad sn fetch j st) := by
  obtain ⟨hfiles, hdir, htrack, honly, hbytes⟩ := hinv
  have htr : st.dir (tempName (segName mt ad sn j)) ≠ some .track :=
    fun h => htmpInit j hj (honly _ h)
  obtain ⟨e1, e2, e3, e4, e5, e6⟩ := worker_effect mt ad sn fetch j st htr
  refine ⟨?_, ?_, ?_, ?_, ?_⟩
  · rw [e2]
    cases hd : (fetch j).isDone with
    | false =>
      simp only [Bool.false_eq_true, if_false]
      rw [hfiles]
      apply List.map_congr_left
      intro i _
      by_cases hij : i = j
      · subst hij; simp [hd]
      · simp [hij]
    | true =>
      simp only [if_true]
      rw [hfiles, map_range_set]
      apply List.map_congr_left
      intro i _
      by_cases hij : i = j
      · subst hij; simp [hd]
      · simp [hij]
  · intro i hi b r hb
    by_cases hij : i = j
    · subst hij
      exact e4 b r hb
    · have hid : i ∈ done := by
        rcases List.mem_cons.mp hi with h | h
        · exact absurd h hij
        · exact h
      have hne : segName mt ad sn i ≠ segName mt ad sn j :=
        fun e => hij (hinj i j (hdone i hid) hj e)
      have hne2 : segName mt ad sn i ≠ tempName (segName mt ad sn j) :=
        fun e => htmpSeg j i hj (hdone i hid) e.symm
      rw [e3 _ hne hne2]
      exact hdir i hid b r hb
  · rw [e3 _ (fun e => hinit j hj e.symm) (fun e => htmpInit j hj e.symm)]
    exact htrack
  · intro x hx
    by_cases h1 : x = segName mt ad sn j
    · rw [h1] at hx
      exact absurd hx e5
    · by_cases h2 : x = tempName (segName mt ad sn j)
      · rw [h2] at hx
        exact absurd hx e6
      · rw [e3 x h1 h2] at hx
        exact honly x hx
  · rw [e1]
    exact hbytes

theorem runWorkers_invariant (mt ad : String) (sn : Int) (n : Nat) (fetch : Nat → Download)
    (init : String) (initBytes : List Byte)
    (hinj : ∀ i j, i < n → j < n → segName mt ad sn i = segName mt ad sn j → i = j)
    (hinit : ∀ i, i < n → segName mt ad sn i ≠ init)
    (htmpInit : ∀ i, i < n → tempName (segName mt ad sn i) ≠ init)
    (htmpSeg : ∀ i j, i < n → j < n → tempName (segName mt ad sn i) ≠ segName mt ad sn j)
    (order : List Nat) :
    ∀ (done : List Nat) (st : PoolState), order.Nodup → (∀ i, i ∈ order → i < n ∧ i ∉ done) →
      (∀ i, i ∈ done → i < n) →
      PoolInv mt ad sn n fetch init initBytes done st →
      PoolInv mt ad sn n fetch init initBytes (order.reverse ++ done)
        (runWorkers mt ad sn fetch order st) := by
  induction order with
  | nil =>
    intro done st _ _ _ hinv
    simpa [runWorkers] using hinv
  | cons j rest ih =>
    intro done st hnd hord hdone hinv
    have hj := hord j (List.mem_cons_self _ _)
    have w := worker_invariant mt ad sn n fetch init initBytes hinj hinit htmpInit htmpSeg
      done j st hj.1 hj.2 hdone hinv
    have hnd' := List.nodup_cons.mp hnd
    have r := ih (j :: done) (worker mt ad sn fetch j st) hnd'.2
      (fun i hi => ⟨(hord i (List.mem_cons_of_mem _ hi)).1, fun hc => by
        rcases List.mem_cons.mp hc with h | h
        · exact hnd'.1 (h ▸ hi)
        · exact (hord i (List.mem_cons_of_mem _ hi)).2 h⟩)
      (fun i hi => by
        rcases List.mem_cons.mp hi with h | h
        · exact h ▸ hj.1
        · exact hdone i h)
      w
    have hrw : runWorkers mt ad sn fetch (j :: rest) st
        = runWorkers mt ad sn fetch rest (worker mt ad sn fetch j st) := rfl
    rw [hrw]
    simpa using r

theorem assembleLoop_spec (fs : LocalFs) (hfs : fs.Reliable) (mt ad : String) (sn : Int)
    (n : Nat) (fetch : Nat → Download) (init : String)
    (hne : ∀ i, i < n → segName mt ad sn i ≠ "")
    (hinj : ∀ i j, i < n → j < n → segName mt ad sn i = segName mt ad sn j → i = j)
    (hinit : ∀ i, i < n → segName mt ad sn i ≠ init)
    (idxs : List Nat) :
    ∀ (k : Nat) (dir : Dir) (master : List Byte), idxs.Nodup → (∀ i, i ∈ idxs → i < n) →
      (∀ i, i ∈ idxs → ∀ b r, fetch i = .done b r →
        dir (segName mt ad sn i) = some (.data b)) →
      dir init = some .track →
      ∃ dir', assembleLoop fs k
            (idxs.map (fun i => if (fetch i).isDone then segName mt ad sn i else "")) dir master
          = some (dir', master ++ concatBoxes (idxs.map (fun i => (fetch i).bytes)))
        ∧ dir' init = some .track := by
  induction idxs with
  | nil =>
    intro k dir master _ _ _ htrack
    exact ⟨dir, by simp [assembleLoop, concatBoxes], htrack⟩
  | cons i rest ih =>
    intro k dir master hnd hlt hdir htrack
    have hnd' := List.nodup_cons.mp hnd
    have hi := hlt i (List.mem_cons_self _ _)
    rw [List.map_cons, List.map_cons, assembleLoop, concatBoxes]
    cases hf : fetch i with
    | failed =>
      have hd1 : (Download.failed).isDone = false := rfl
      have hb1 : (Download.failed).bytes = [] := rfl
      simp only [hd1, hb1, Bool.false_eq_true, if_false, if_true, List.nil_append]
      exact ih (k + 1) dir master hnd'.2 (fun j hj => hlt j (List.mem_cons_of_mem _ hj))
        (fun j hj b r hb => hdir j (List.mem_cons_of_mem _ hj) b r hb) htrack
    | failedAfterCreate left =>
      have hd1 : (Download.failedAfterCreate left).isDone = false := rfl
      have hb1 : (Download.failedAfterCreate left).bytes = [] := rfl
      simp only [hd1, hb1, Bool.false_eq_true, if_false, if_true, List.nil_append]
      exact ih (k + 1) dir master hnd'.2 (fun j hj => hlt j (List.mem_cons_of_mem _ hj))
        (fun j hj b r hb => hdir j (List.mem_cons_of_mem _ hj) b r hb) htrack
    | done b renamed =>
      have hd : dir (segName mt ad sn i) = some (.data b) :=
        hdir i (List.mem_cons_self _ _) b renamed hf
      have hd1 : (Download.done b renamed).isDone = true := rfl
      have hb1 : (Download.done b renamed).bytes = b := rfl
      simp only [hd1, hb1, if_true, if_neg (hne i hi), hd, hfs.1 k, hfs.2 k b,
        Bool.true_eq_false, if_false]
      obtain ⟨dir', h1, h2⟩ := ih (k + 1) (dir.remove (segName mt ad sn i)) (master ++ b) hnd'.2
        (fun j hj => hlt j (List.mem_cons_of_mem _ hj))
        (fun j hj c r hc => by
          have hji : j ≠ i := fun e => hnd'.1 (e ▸ hj)
          have hnj : segName mt ad sn j ≠ segName mt ad sn i :=
            fun e => hji (hinj j i (hlt j (List.mem_cons_of_mem _ hj)) hi e)
          simp only [Dir.remove, if_neg hnj]
          exact hdir j (List.mem_cons_of_mem _ hj) c r hc)
        (by
          have : init ≠ segName mt ad sn i := fun e => hinit i hi e.symm
          simp only [Dir.remove, if_neg this]
          exact htrack)
      exact ⟨dir', by rw [h1, List.append_assoc], h2⟩

theorem replicate_eq_map_range (n : Nat) (f : Nat → String) (hf : ∀ i, i < n → f i = "") :
    List.replicate n "" = (List.range n).map f := by
  apply List.ext_getElem
  · simp
  · intro i h1 h2
    simp only [List.getElem_replicate, List.getElem_map, List.getElem_range]
    exact (hf i (by simpa using h2)).symm

/-- C12 (as stated) fails. With the media template "seg.m4s", which has no `$Number$`, both
segments get the file name "seg.m4s": with both fetches successful the assembled file holds
the init bytes and the bytes of the segment fetched last only, and depends on the completion
order. With the init file "s1", the template "s$Number$" and start number 1, segment 0 has
the name of the track file: its worker removes the track file, and after the loop no file has
that name. With the init file "s1.tmp", the temporary file of segment 0 is the track file:
the download truncates it and renames it to "s1", and the loop then copies the track file
to its own end. -/
theorem templateTrack_same_name_counterexample :
    segName "seg.m4s" "v1" 1 0 = "seg.m4s" ∧ segName "seg.m4s" "v1" 1 1 = "seg.m4s"
      ∧ twoFetched 0 = .done [1] true ∧ twoFetched 1 = .done [2] true
      ∧ templateTrack "seg.m4s" "v1" 1 2 twoFetched [0, 1] reliableFs (fun _ => none)
          "init.mp4" [9] = .ok [9, 2]
      ∧ templateTrack "seg.m4s" "v1" 1 2 twoFetched [1, 0] reliableFs (fun _ => none)
          "init.mp4" [9] = .ok [9, 1]
      ∧ [9] ++ fetchedInOrder 2 twoFetched = [9, 1, 2]
      ∧ segName "s$Number$" "v1" 1 0 = "s1" ∧ segName "s$Number$" "v1" 1 1 = "s2"
      ∧ templateTrack "s$Number$" "v1" 1 2 twoFetched [0, 1] reliableFs (fun _ => none)
          "s1" [9] = .error "track file missing"
      ∧ templateTrack "s$Number$" "v1" 1 2 twoFetched [0, 1] reliableFs (fun _ => none)
          "s1.tmp" [9] = .outOfFuel := by
  decide

/-- C12 (amended): on the template path, when every local open and copy of the assembly loop
succeeds, the init file name and the file names of the `n` segments are plain names (not
empty, no path separator), the segment file names are pairwise distinct, and neither a
segment file name nor its temporary name (the file name followed by ".tmp") is the init file
name, then for every outcome of the `n` fetches and every order in which the workers
complete, the assembled track file is the init bytes followed by the bytes of the fetched
segments in increasing index; a failed segment contributes nothing and the others are still
appended. -/
theorem templateTrack_assembly (mediaTemplate adaptation : String) (startNumber : Int)
    (n : Nat) (fetch : Nat → Download) (order : List Nat) (fs : LocalFs)
    (existing : String → Option (List Byte)) (initmp4 : String) (initBytes : List Byte)
    (hperm : order.Perm (List.range n))
    (hfs : fs.Reliable)
    (hplain : ∀ i, i < n → PlainName (segName mediaTemplate adaptation startNumber i))
    (hinit : PlainName initmp4 ∧ ∀ i, i < n →
      segName mediaTemplate adaptation startNumber i ≠ initmp4
        ∧ tempName (segName mediaTemplate adaptation startNumber i) ≠ initmp4)
    (hinj : ∀ i, i < n → ∀ j, j < n →
      segName mediaTemplate adaptation startNumber i
        = segName mediaTemplate adaptation startNumber j → i = j) :
    templateTrack mediaTemplate adaptation startNumber n fetch order fs existing initmp4
      initBytes = .ok (initBytes ++ fetchedInOrder n fetch) := by
  have hinj' : ∀ i j, i < n → j < n → segName mediaTemplate adaptation startNumber i
      = segName mediaTemplate adaptation startNumber j → i = j :=
    fun i j hi hj => hinj i hi j hj
  have hnd : order.Nodup := (List.Perm.nodup_iff hperm).mpr (List.nodup_range n)
  have hmem : ∀ i, i ∈ order ↔ i < n := fun i => (List.Perm.mem_iff hperm).trans List.mem_range
  obtain ⟨r1, r2, r3, _, r5⟩ := runWorkers_invariant mediaTemplate adaptation startNumber n
    fetch initmp4 initBytes hinj' (fun i hi => (hinit.2 i hi).1) (fun i hi => (hinit.2 i hi).2)
    (fun i j _ _ => tempName_ne_segName mediaTemplate adaptation startNumber i j) order
    [] { dir := fun x => if x = initmp4 then some .track else (existing x).map .data,
         track := initBytes, files := List.replicate n "" } hnd
    (fun i hi => ⟨(hmem i).mp hi, List.not_mem_nil i⟩)
    (fun i hi => absurd hi (List.not_mem_nil i))
    ⟨replicate_eq_map_range n _ (fun i _ => by simp),
     fun i hi => absurd hi (List.not_mem_nil i), by simp,
     (fun x hx => by
       by_cases h : x = initmp4
       · exact h
       · simp only [if_neg h] at hx
         cases hex : existing x with
         | none => rw [hex] at hx; cases hx
         | some b => rw [hex] at hx; cases hx),
     rfl⟩
  have hfiles : (runWorkers mediaTemplate adaptation startNumber fetch order
      { dir := fun x => if x = initmp4 then some .track else (existing x).map .data,
        track := initBytes, files := List.replicate n "" }).files
      = (List.range n).map (fun i =>
          if (fetch i).isDone then segName mediaTemplate adaptation startNumber i else "") := by
    rw [r1]
    apply List.map_congr_left
    intro i hi
    have : i ∈ order := (hmem i).mpr (List.mem_range.mp hi)
    simp [this]
  obtain ⟨dir', h1, h2⟩ := assembleLoop_spec fs hfs mediaTemplate adaptation startNumber n fetch
    initmp4 (fun i hi => (hplain i hi).1) hinj' (fun i hi => (hinit.2 i hi).1) (List.range n) 0 _
    initBytes (List.nodup_range n)
    (fun i hi => List.mem_range.mp hi)
    (fun i hi b r hb => r2 i (by simp [(hmem i).mpr (List.mem_range.mp hi)]) b r hb) r3
  unfold templateTrack fetchedInOrder
  dsimp only
  rw [hfiles, r5, h1]
  dsimp only
  rw [h2]

/-- C12 (amended), on three segments whose middle fetch fails, for two completion orders. -/
theorem templateTrack_assembly_witness :
    templateTrack "s$Number$" "v1" 1 3 middleFailed [2, 0, 1] reliableFs (fun _ => none)
        "init.mp4" [9] = .ok [9, 1, 1, 3]
      ∧ templateTrack "s$Number$" "v1" 1 3 middleFailed [1, 2, 0] reliableFs (fun _ => none)
        "init.mp4" [9] = .ok [9, 1, 1, 3] :=
  ⟨(templateTrack_assembly "s$Number$" "v1" 1 3 middleFailed [2, 0, 1] reliableFs
      (fun _ => none) "init.mp4" [9] (by decide) ⟨fun _ => rfl, fun _ _ => rfl⟩ (by decide)
      (by decide) (by decide)).trans (by decide),
   (templateTrack_assembly "s$Number$" "v1" 1 3 middleFailed [1, 2, 0] reliableFs
      (fun _ => none) "init.mp4" [9] (by decide) ⟨fun _ => rfl, fun _ _ => rfl⟩ (by decide)
      (by decide) (by decide)).trans (by decide)⟩

/-- C13: when every attempt ends in a transport error, a non-200 status or a non-empty write,
`downloadWithRetry` makes at most 3 attempts, returns success exactly when one of attempts 1, 2,
3 succeeds and an error otherwise, stops at the first success, and sleeps `retryDelay * k` after
the `k`-th failed attempt that is followed by another one (2 s, then 4 s), so the sleeps are
strictly increasing. -/
theorem downloadWithRetry_policy (outcome : Nat → AttemptOutcome)
    (h : ∀ k, outcome k = .transportError ∨ outcome k = .badStatus ∨ outcome k = .written) :
    (downloadWithRetry outcome).2.attempts ≤ 3
      ∧ 1 ≤ (downloadWithRetry outcome).2.attempts
      ∧ ((downloadWithRetry outcome).1 = .ok ()
          ↔ outcome 1 = .written ∨ outcome 2 = .written ∨ outcome 3 = .written)
      ∧ ((downloadWithRetry outcome).1 = .ok ()
          ↔ outcome (downloadWithRetry outcome).2.attempts = .written)
      ∧ ((downloadWithRetry outcome).1 = .ok () ∨ ∃ msg, (downloadWithRetry outcome).1 = .error msg)
      ∧ (∀ k, 1 ≤ k → k < (downloadWithRetry outcome).2.attempts → outcome k ≠ .written)
      ∧ (downloadWithRetry outcome).2.sleeps
          = (List.range ((downloadWithRetry outcome).2.attempts - 1)).map
              (fun j => retryDelay * (j + 1))
      ∧ List.Pairwise (fun a b => a < b) (downloadWithRetry outcome).2.sleeps := by
  rcases h 1 with h1 | h1 | h1 <;> rcases h 2 with h2 | h2 | h2 <;>
    rcases h 3 with h3 | h3 | h3 <;>
    simp [downloadWithRetry, downloadWithRetryLoop, retryOrFail, maxRetries, retryDelay,
      h1, h2, h3, List.range_succ] <;>
    intro k hk1 hk2 <;>
    rcases k with _ | _ | _ | k <;>
    first
      | omega
      | simp [h1, h2]

theorem downloadWithRetry_policy_witness :
    downloadWithRetry failTwiceThenWrite
        = (.ok (), { attempts := 3, sleeps := [2000000000, 4000000000] })
      ∧ ((downloadWithRetry failTwiceThenWrite).1 = .ok ()
          ↔ failTwiceThenWrite 1 = .written ∨ failTwiceThenWrite 2 = .written
            ∨ failTwiceThenWrite 3 = .written)
      ∧ (downloadWithRetry failTwiceThenWrite).2.sleeps
          = (List.range ((downloadWithRetry failTwiceThenWrite).2.attempts - 1)).map
              (fun j => retryDelay * (j + 1))
      ∧ (∃ msg, (downloadWithRetry (fun _ => .badStatus)).1 = .error msg)
      ∧ (downloadWithRetry (fun _ => .badStatus)).2.attempts ≤ 3 :=
  ⟨by decide,
   (downloadWithRetry_policy failTwiceThenWrite (by
      intro k
      rcases k with _ | _ | _ | k <;> simp [failTwiceThenWrite])).2.2.1,
   (downloadWithRetry_policy failTwiceThenWrite (by
      intro k
      rcases k with _ | _ | _ | k <;> simp [failTwiceThenWrite])).2.2.2.2.2.2.1,
   ((downloadWithRetry_policy (fun _ => .badStatus) (fun _ => Or.inr (Or.inl rfl))).2.2.2.2.1).resolve_left
     (by decide),
   (downloadWithRetry_policy (fun _ => .badStatus) (fun _ => Or.inr (Or.inl rfl))).1⟩

theorem base62_length : base62.length = 62 := by decide

theorem base62Numeral_step (n : Nat) (hn : n ≠ 0) :
    base62Numeral n = base62Numeral (n / 62) ++ [base62.getD (n % 62) '0'] := by
  unfold base62Numeral
  rw [Nat.digits_def' (by norm_num) (Nat.pos_of_ne_zero hn)]
  simp

theorem EncodeToBase62Loop_eq (fuel : Nat) :
    ∀ (n : Nat) (acc : List Char), n < fuel →
      EncodeToBase62Loop fuel n acc = .ok (base62Numeral n ++ acc) := by
  induction fuel with
  | zero => intro n acc h; omega
  | succ fuel ih =>
    intro n acc h
    rw [EncodeToBase62Loop]
    by_cases hn : n = 0
    · rw [if_pos hn, hn]
      simp [base62Numeral]
    · have hlt : n % 62 < base62.length := by rw [base62_length]; exact Nat.mod_lt _ (by norm_num)
      have hget : base62.get? (n % 62) = some (base62.getD (n % 62) '0') := by
        rw [List.get?_eq_getElem?, List.getD_eq_getElem?_getD, List.getElem?_eq_getElem hlt]
        rfl
      have hdiv : n / 62 < fuel := by
        have := Nat.div_lt_self (Nat.pos_of_ne_zero hn) (by norm_num : 1 < 62)
        omega
      rw [if_neg hn, hget]
      dsimp only
      rw [ih _ _ hdiv, base62Numeral_step n hn]
      simp

theorem EncodeToBase62_eq (s : List Byte) :
    EncodeToBase62 s = .ok (base62Numeral (beUint s)) := by
  unfold EncodeToBase62
  rw [EncodeToBase62Loop_eq _ _ _ (Nat.lt_succ_self _)]
  simp

theorem base62Numeral_length (n : Nat) : (base62Numeral n).length = (Nat.digits 62 n).length := by
  simp [base62Numeral]

theorem base62Numeral_length_ge (n : Nat) (h : 62 ^ 7 ≤ n) : 8 ≤ (base62Numeral n).length := by
  rw [base62Numeral_length]
  by_contra hc
  have h1 : n < 62 ^ (Nat.digits 62 n).length := Nat.lt_base_pow_length_digits (by norm_num)
  have h2 : 62 ^ (Nat.digits 62 n).length ≤ 62 ^ 7 :=
    Nat.pow_le_pow_right (by norm_num) (by omega)
  omega

theorem base62Numeral_length_lt (n : Nat) (h : n < 62 ^ 7) : (base62Numeral n).length < 8 := by
  rw [base62Numeral_length]
  by_contra hc
  have hn : n ≠ 0 := by
    intro h0
    rw [h0] at hc
    simp at hc
  have h1 := Nat.base_pow_length_digits_le 62 n (by norm_num) hn
  have h2 : 62 ^ 8 ≤ 62 ^ (Nat.digits 62 n).length :=
    Nat.pow_le_pow_right (by norm_num) (by omega)
  omega

theorem base62Numeral_mem (n : Nat) (c : Char) (hc : c ∈ base62Numeral n) : c ∈ base62 := by
  unfold base62Numeral at hc
  obtain ⟨d, hd, rfl⟩ := List.mem_map.mp hc
  have hlt : d < base62.length := by
    rw [base62_length]
    exact Nat.digits_lt_base (by norm_num) (List.mem_reverse.mp hd)
  rw [List.getD_eq_getElem _ _ hlt]
  exact List.getElem_mem _

/-- A key ID whose bytes form an integer below `62^7` has fewer than 8 base-62 digits: the
slice expression of the merge step is out of range. -/
theorem mergeKey_small_panics (kid : List Byte) (h : beUint kid < 62 ^ 7) :
    mergeKey kid = .panic := by
  unfold mergeKey
  rw [EncodeToBase62_eq]
  dsimp only
  rw [if_neg (by have := base62Numeral_length_lt _ h; omega)]

/-- C14 (as stated) fails: for the empty key ID the encoding is the empty string, for the key
ID "abcde" it is the 7 characters "7myeRoh"; in both cases the slice `[:8]` is out of range. -/
theorem mergeKey_short_counterexample :
    EncodeToBase62 [] = .ok [] ∧ mergeKey [] = .panic
      ∧ EncodeToBase62 (kidBytes "abcde") = .ok "7myeRoh".toList
      ∧ mergeKey (kidBytes "abcde") = .panic := by
  decide

/-- C14 (amended): `EncodeToBase62(kid)` is the base-62 numeral, most significant digit first,
of the big-endian integer formed by the bytes of `kid`; when that integer is at least `62^7`
the merge key `EncodeToBase62(kid)[:8]` is defined, is exactly 8 characters long and every
character is drawn from the base-62 alphabet. -/
theorem mergeKey_defined (kid : List Byte) (h : 62 ^ 7 ≤ beUint kid) :
    EncodeToBase62 kid = .ok (base62Numeral (beUint kid))
      ∧ mergeKey kid = .ok ((base62Numeral (beUint kid)).take 8)
      ∧ ((base62Numeral (beUint kid)).take 8).length = 8
      ∧ ∀ c, c ∈ (base62Numeral (beUint kid)).take 8 → c ∈ base62 := by
  have hlen := base62Numeral_length_ge _ h
  refine ⟨EncodeToBase62_eq kid, ?_, ?_, ?_⟩
  · unfold mergeKey
    rw [EncodeToBase62_eq]
    dsimp only
    rw [if_pos hlen]
  · rw [List.length_take]; omega
  · intro c hc
    exact base62Numeral_mem _ c (List.mem_of_mem_take hc)

theorem mergeKey_defined_witness :
    mergeKey (kidBytes "9eb4050d-e44b-4802-932e-27d75083e266") = .ok "11O3Kqx6".toList
      ∧ ∃ key, mergeKey (kidBytes "9eb4050d-e44b-4802-932e-27d75083e266") = .ok key
          ∧ key.length = 8 ∧ ∀ c, c ∈ key → c ∈ base62 :=
  ⟨by decide,
   _, (mergeKey_defined (kidBytes "9eb4050d-e44b-4802-932e-27d75083e266") (by decide)).2.1,
   (mergeKey_defined (kidBytes "9eb4050d-e44b-4802-932e-27d75083e266") (by decide)).2.2.1,
   (mergeKey_defined (kidBytes "9eb4050d-e44b-4802-932e-27d75083e266") (by decide)).2.2.2⟩

theorem beUint_foldl (l : List Byte) :
    ∀ acc : Nat, l.foldl (fun a b => a * 256 + b.val) acc
      = acc * 256 ^ l.length + l.foldl (fun a b => a * 256 + b.val) 0 := by
  induction l with
  | nil => intro acc; simp
  | cons b rest ih =>
    intro acc
    rw [List.foldl_cons, ih, List.foldl_cons, ih (0 * 256 + b.val), List.length_cons, pow_succ]
    ring

/-- A key ID of at least 6 bytes whose first byte is at least 4 (any printable character)
forms an integer of at least `62^7`. -/
theorem beUint_six_bytes (b : Byte) (rest : List Byte) (h1 : 5 ≤ rest.length) (h2 : 4 ≤ b.val) :
    62 ^ 7 ≤ beUint (b :: rest) := by
  unfold beUint
  rw [List.foldl_cons, beUint_foldl]
  have hp : 256 ^ 5 ≤ 256 ^ rest.length := Nat.pow_le_pow_right (by norm_num) h1
  have hm : 4 * 256 ^ 5 ≤ (0 * 256 + b.val) * 256 ^ rest.length :=
    Nat.mul_le_mul (by omega) hp
  have : 62 ^ 7 ≤ 4 * 256 ^ 5 := by norm_num
  omega

/-! ## Float64 rounding and the template-path segment count -/

/-- An integer closer than one half is the rounded value. -/
theorem roundHalfEven_eq_of_abs_lt (q : ℚ) (N : ℤ) (h : |q - N| < 1 / 2) :
    roundHalfEven q = N := by
  rw [abs_lt] at h
  obtain ⟨h1, h2⟩ := h
  unfold roundHalfEven
  by_cases hq : (N : ℚ) ≤ q
  · have hf : ⌊q⌋ = N := by
      rw [Int.floor_eq_iff]
      constructor
      · exact hq
      · linarith
    rw [hf, if_pos (by linarith)]
  · push_neg at hq
    have hf : ⌊q⌋ = N - 1 := by
      rw [Int.floor_eq_iff]
      push_cast
      constructor <;> linarith
    rw [hf]
    push_cast
    rw [if_neg (by linarith), if_pos (by linarith)]
    ring

theorem roundHalfEven_intCast (n : ℤ) : roundHalfEven (n : ℚ) = n :=
  roundHalfEven_eq_of_abs_lt _ n (by simp)

/-- Rounding to an integer moves a number by at most one half. -/
theorem roundHalfEven_error (q : ℚ) : |(roundHalfEven q : ℚ) - q| ≤ 1 / 2 := by
  have h1 := Int.floor_le q
  have h2 := Int.lt_floor_add_one q
  unfold roundHalfEven
  rw [abs_le]
  split_ifs with c1 c2 c3 <;> push_cast <;> constructor <;> linarith

theorem log2_eq (x : ℚ) (E : ℤ) (h1 : (2 : ℚ) ^ E ≤ x) (h2 : x < (2 : ℚ) ^ (E + 1)) :
    Int.log 2 x = E := by
  have hx : 0 < x := lt_of_lt_of_le (by positivity) h1
  have a1 : E ≤ Int.log 2 x := (Int.zpow_le_iff_le_log (by norm_num) hx).mp (by simpa using h1)
  have a2 : Int.log 2 x < E + 1 := (Int.lt_zpow_iff_log_lt (by norm_num) hx).mp (by simpa using h2)
  omega

theorem log2_bounds (x : ℚ) (hx : 0 < x) :
    (2 : ℚ) ^ Int.log 2 x ≤ x ∧ x < (2 : ℚ) ^ (Int.log 2 x + 1) := by
  have a1 := Int.zpow_log_le_self (b := 2) (by norm_num) hx
  have a2 := Int.lt_zpow_succ_log_self (b := 2) (by norm_num) x
  exact ⟨by simpa using a1, by simpa using a2⟩

theorem f64UlpExp_normal (x : ℚ) (hlo : (2 : ℚ) ^ (-1022 : ℤ) ≤ x) :
    f64UlpExp x = Int.log 2 x - 52 := by
  have hx : 0 < x := lt_of_lt_of_le (by positivity) hlo
  have : (-1022 : ℤ) ≤ Int.log 2 x :=
    (Int.zpow_le_iff_le_log (by norm_num) hx).mp (by simpa using hlo)
  unfold f64UlpExp
  exact max_eq_left (by omega)

/-- Evaluation of the rounding in the normal range: for `2^E ≤ x < 2^(E+1)` the result is
`N * 2^(E-52)` for the integer `N` nearest to `x / 2^(E-52)`. -/
theorem f64Round_eval (x : ℚ) (E N : ℤ) (hE : -1022 ≤ E) (h1 : (2 : ℚ) ^ E ≤ x)
    (h2 : x < (2 : ℚ) ^ (E + 1)) (hN : |x / 2 ^ (E - 52) - N| < 1 / 2)
    (hfin : (N : ℚ) * 2 ^ (E - 52) < 2 ^ 1024) :
    f64Round x = some ((N : ℚ) * 2 ^ (E - 52)) := by
  have hlog := log2_eq x E h1 h2
  have he : f64UlpExp x = E - 52 := by
    unfold f64UlpExp
    rw [hlog]
    exact max_eq_left (by omega)
  unfold f64Round
  rw [he, roundHalfEven_eq_of_abs_lt _ N hN]
  dsimp only
  rw [if_pos hfin]

/-- A value `N * 2^e` whose exponent is at least that of the unit in the last place is not
changed by the rounding. -/
theorem f64Round_exact (x : ℚ) (N e' : ℤ) (hrep : x = (N : ℚ) * 2 ^ e')
    (he : f64UlpExp x ≤ e') (hfin : x < 2 ^ 1024) : f64Round x = some x := by
  obtain ⟨k, hk⟩ := Int.eq_ofNat_of_zero_le (sub_nonneg.mpr he)
  have h2 : (2 : ℚ) ^ f64UlpExp x ≠ 0 := by positivity
  have hy : x / 2 ^ f64UlpExp x = ((N * 2 ^ k : ℤ) : ℚ) := by
    rw [div_eq_iff h2]
    push_cast
    rw [mul_assoc, ← zpow_natCast, ← zpow_add₀ (by norm_num : (2 : ℚ) ≠ 0), ← hk]
    rw [show e' - f64UlpExp x + f64UlpExp x = e' by ring]
    exact hrep
  have hr : ((roundHalfEven (x / 2 ^ f64UlpExp x) : ℤ) : ℚ) * 2 ^ f64UlpExp x = x := by
    rw [hy, roundHalfEven_intCast, ← hy, div_mul_cancel₀ _ h2]
  unfold f64Round
  dsimp only
  rw [hr, if_pos hfin]

/-- The integers from 0 to `2^53 - 1` are float64 values. -/
theorem f64Round_intCast (n : ℤ) (h0 : 0 ≤ n) (hn : n < 2 ^ 53) :
    f64Round (n : ℚ) = some (n : ℚ) := by
  rcases eq_or_lt_of_le h0 with h0 | hpos
  · subst h0
    exact f64Round_exact _ 0 0 (by simp) (by unfold f64UlpExp; simp) (by norm_num)
  · have hx : (0 : ℚ) < n := by exact_mod_cast hpos
    have hlt : (n : ℚ) < (2 : ℚ) ^ (53 : ℤ) := by
      have : (n : ℚ) < ((2 ^ 53 : ℤ) : ℚ) := by exact_mod_cast hn
      calc (n : ℚ) < ((2 ^ 53 : ℤ) : ℚ) := this
        _ = (2 : ℚ) ^ (53 : ℤ) := by norm_num
    have hlog : Int.log 2 (n : ℚ) < 53 :=
      (Int.lt_zpow_iff_log_lt (by norm_num) hx).mp (by simpa using hlt)
    apply f64Round_exact _ n 0 (by simp)
    · unfold f64UlpExp
      exact max_le (by omega) (by norm_num)
    · calc (n : ℚ) < (2 : ℚ) ^ (53 : ℤ) := hlt
        _ ≤ 2 ^ 1024 := by norm_num

/-- In the normal range the rounding has a relative error of at most `2^-53`. -/
theorem f64Round_error (x : ℚ) (hlo : (2 : ℚ) ^ (-1022 : ℤ) ≤ x) (hhi : x < 2 ^ 1023) :
    ∃ r, f64Round x = some r ∧ |r - x| ≤ x / 2 ^ 53 := by
  have hx : 0 < x := lt_of_lt_of_le (by positivity) hlo
  have he := f64UlpExp_normal x hlo
  obtain ⟨b1, _⟩ := log2_bounds x hx
  have h2 : (0 : ℚ) < 2 ^ f64UlpExp x := by positivity
  have hulp : (2 : ℚ) ^ f64UlpExp x = 2 ^ Int.log 2 x / 2 ^ 52 := by
    rw [he, zpow_sub₀ (by norm_num : (2 : ℚ) ≠ 0)]
    norm_num
  have herr := roundHalfEven_error (x / 2 ^ f64UlpExp x)
  have hmul : |((roundHalfEven (x / 2 ^ f64UlpExp x) : ℤ) : ℚ) * 2 ^ f64UlpExp x - x|
      ≤ 1 / 2 * 2 ^ f64UlpExp x := by
    have : ((roundHalfEven (x / 2 ^ f64UlpExp x) : ℤ) : ℚ) * 2 ^ f64UlpExp x - x
        = (((roundHalfEven (x / 2 ^ f64UlpExp x) : ℤ) : ℚ) - x / 2 ^ f64UlpExp x)
          * 2 ^ f64UlpExp x := by
      field_simp
    rw [this, abs_mul, abs_of_pos h2]
    exact mul_le_mul_of_nonneg_right herr (le_of_lt h2)
  have hbound : 1 / 2 * (2 : ℚ) ^ f64UlpExp x ≤ x / 2 ^ 53 := by
    rw [hulp]
    have : (2 : ℚ) ^ Int.log 2 x / 2 ^ 53 ≤ x / 2 ^ 53 :=
      div_le_div_of_nonneg_right b1 (by positivity)
    calc 1 / 2 * ((2 : ℚ) ^ Int.log 2 x / 2 ^ 52) = 2 ^ Int.log 2 x / 2 ^ 53 := by ring
      _ ≤ x / 2 ^ 53 := this
  have hfinal := le_trans hmul hbound
  refine ⟨_, ?_, hfinal⟩
  unfold f64Round
  dsimp only
  rw [if_pos]
  have := (abs_le.mp hfinal).2
  have hx53 : x / 2 ^ 53 ≤ x := div_le_self (le_of_lt hx) (by norm_num)
  have : ((roundHalfEven (x / 2 ^ f64UlpExp x) : ℤ) : ℚ) * 2 ^ f64UlpExp x ≤ 2 * x := by
    linarith
  calc ((roundHalfEven (x / 2 ^ f64UlpExp x) : ℤ) : ℚ) * 2 ^ f64UlpExp x ≤ 2 * x := this
    _ < 2 * 2 ^ 1023 := by linarith
    _ = 2 ^ 1024 := by norm_num

/-- A positive float64 below `2^53` is an integer below `2^53` divided by a power of two. -/
theorem f64_representation (d : ℚ) (hrep : f64Round d = some d) (h0 : 0 < d)
    (hhi : d < 2 ^ 53) : ∃ (M : ℤ) (j : ℕ), (M : ℚ) < 2 ^ 53 ∧ d * 2 ^ j = M := by
  have hd : ((roundHalfEven (d / 2 ^ f64UlpExp d) : ℤ) : ℚ) * 2 ^ f64UlpExp d = d := by
    unfold f64Round at hrep
    dsimp only at hrep
    split_ifs at hrep
    exact Option.some.inj hrep
  obtain ⟨_, b2⟩ := log2_bounds d h0
  have he : Int.log 2 d - 52 ≤ f64UlpExp d := le_max_left _ _
  generalize f64UlpExp d = e at hd he
  generalize roundHalfEven (d / 2 ^ e) = N at hd
  have h2 : (0 : ℚ) < 2 ^ e := by positivity
  rcases le_or_lt 0 e with hpos | hneg
  · obtain ⟨k, hk⟩ := Int.eq_ofNat_of_zero_le hpos
    refine ⟨N * 2 ^ k, 0, ?_, ?_⟩
    · push_cast
      rw [← zpow_natCast, ← hk, hd]
      exact hhi
    · push_cast
      rw [← zpow_natCast (2 : ℚ) k, ← hk, hd]
      simp
  · obtain ⟨k, hk⟩ := Int.eq_ofNat_of_zero_le (show 0 ≤ -e by omega)
    refine ⟨N, k, ?_, ?_⟩
    · have h3 : (N : ℚ) * 2 ^ e < 2 ^ 53 * 2 ^ e := by
        rw [hd, ← zpow_natCast (2 : ℚ) 53, ← zpow_add₀ (by norm_num : (2 : ℚ) ≠ 0)]
        refine lt_of_lt_of_le b2 ?_
        exact zpow_le_zpow_right₀ (by norm_num) (by push_cast; omega)
      exact lt_of_mul_lt_mul_right h3 (le_of_lt h2)
    · rw [← hd, mul_assoc, ← zpow_natCast (2 : ℚ) k, ← hk,
        ← zpow_add₀ (by norm_num : (2 : ℚ) ≠ 0)]
      simp

/-- For a float64 `d` and an integer `s` in range, the rounding of `d / s` has the ceiling of
`d / s`: when `d / s` is not an integer, its distance to the integers exceeds the rounding
error. -/
theorem ceil_f64Round_div (d : ℚ) (s : ℤ) (hrep : f64Round d = some d)
    (hlo : (2 : ℚ) ^ (-969 : ℤ) ≤ d) (hhi : d < 2 ^ 53) (hs : 0 < s) (hs53 : s < 2 ^ 53) :
    ∃ r, f64Round (d / s) = some r ∧ ⌈r⌉ = ⌈d / (s : ℚ)⌉ ∧ 0 < ⌈d / (s : ℚ)⌉ ∧
      ⌈d / (s : ℚ)⌉ ≤ 2 ^ 53 := by
  have h0 : 0 < d := lt_of_lt_of_le (by positivity) hlo
  have hsq : (0 : ℚ) < s := by exact_mod_cast hs
  have hs1 : (1 : ℚ) ≤ s := by exact_mod_cast hs
  have hs53q : (s : ℚ) < 2 ^ 53 := by exact_mod_cast hs53
  have hx0 : 0 < d / (s : ℚ) := div_pos h0 hsq
  have hxd : d / (s : ℚ) ≤ d := div_le_self (le_of_lt h0) hs1
  have hxlo : (2 : ℚ) ^ (-1022 : ℤ) ≤ d / s := by
    rw [le_div_iff₀ hsq]
    calc (2 : ℚ) ^ (-1022 : ℤ) * s ≤ 2 ^ (-1022 : ℤ) * 2 ^ 53 :=
          mul_le_mul_of_nonneg_left (le_of_lt hs53q) (by positivity)
      _ = 2 ^ (-969 : ℤ) := by norm_num
      _ ≤ d := hlo
  have hxhi : d / (s : ℚ) < 2 ^ 1023 :=
    lt_of_le_of_lt hxd (lt_trans hhi (by norm_num))
  obtain ⟨r, hr, herr⟩ := f64Round_error (d / s) hxlo hxhi
  obtain ⟨M, j, hM, hMj⟩ := f64_representation d hrep h0 hhi
  have hcpos : 0 < ⌈d / (s : ℚ)⌉ := Int.ceil_pos.mpr hx0
  have hc53 : ⌈d / (s : ℚ)⌉ ≤ 2 ^ 53 := by
    rw [Int.ceil_le]
    push_cast
    linarith
  refine ⟨r, hr, ?_, hcpos, hc53⟩
  generalize hc : ⌈d / (s : ℚ)⌉ = c at hcpos hc53
  have hc1 : ((c - 1 : ℤ) : ℚ) < d / s := by
    have := Int.ceil_lt_add_one (d / (s : ℚ))
    rw [hc] at this
    push_cast
    linarith
  have hc2 : d / (s : ℚ) ≤ c := by
    rw [← hc]
    exact Int.le_ceil _
  -- the common denominator
  have hT : (0 : ℚ) < (s : ℚ) * 2 ^ j := by positivity
  have hxT : d / (s : ℚ) * ((s : ℚ) * 2 ^ j) = M := by
    rw [← hMj]
    field_simp
    ring
  have herr2 : |r - d / s| < 1 / ((s : ℚ) * 2 ^ j) := by
    refine lt_of_le_of_lt herr ?_
    rw [div_lt_div_iff₀ (by positivity) hT, one_mul]
    calc d / (s : ℚ) * ((s : ℚ) * 2 ^ j) = M := hxT
      _ < 2 ^ 53 := hM
  rw [abs_lt] at herr2
  obtain ⟨e1, e2⟩ := herr2
  rw [Int.ceil_eq_iff]
  constructor
  · -- c - 1 < r
    have hlt : ((c - 1) * (s * 2 ^ j) : ℤ) < M := by
      have : ((c - 1 : ℤ) : ℚ) * ((s : ℚ) * 2 ^ j) < M := by
        rw [← hxT]
        exact mul_lt_mul_of_pos_right hc1 hT
      exact_mod_cast this
    have hle : ((c - 1) * (s * 2 ^ j) : ℤ) + 1 ≤ M := hlt
    have hleq : ((c - 1 : ℤ) : ℚ) * ((s : ℚ) * 2 ^ j) + 1 ≤ M := by exact_mod_cast hle
    have hgap : ((c - 1 : ℤ) : ℚ) + 1 / ((s : ℚ) * 2 ^ j) ≤ d / s := by
      rw [← hxT] at hleq
      have : (((c - 1 : ℤ) : ℚ) + 1 / ((s : ℚ) * 2 ^ j)) * ((s : ℚ) * 2 ^ j)
          ≤ d / s * ((s : ℚ) * 2 ^ j) := by
        rw [add_mul, one_div, inv_mul_cancel₀ (ne_of_gt hT)]
        exact hleq
      exact le_of_mul_le_mul_right this hT
    push_cast at hgap ⊢
    linarith
  · -- r ≤ c
    rcases eq_or_lt_of_le hc2 with heq | hlt
    · have hcn : c < 2 ^ 53 := by
        have : (c : ℚ) < 2 ^ 53 := by
          rw [← heq]
          exact lt_of_le_of_lt hxd hhi
        exact_mod_cast this
      have := f64Round_intCast c (le_of_lt hcpos) hcn
      rw [← heq, hr] at this
      rw [Option.some.inj this, heq]
    · have hlt2 : M < (c * (s * 2 ^ j) : ℤ) := by
        have : (M : ℚ) < (c : ℚ) * ((s : ℚ) * 2 ^ j) := by
          rw [← hxT]
          exact mul_lt_mul_of_pos_right hlt hT
        exact_mod_cast this
      have hle : M + 1 ≤ (c * (s * 2 ^ j) : ℤ) := hlt2
      have hleq : (M : ℚ) + 1 ≤ (c : ℚ) * ((s : ℚ) * 2 ^ j) := by exact_mod_cast hle
      have hgap : d / s + 1 / ((s : ℚ) * 2 ^ j) ≤ c := by
        rw [← hxT] at hleq
        have : (d / s + 1 / ((s : ℚ) * 2 ^ j)) * ((s : ℚ) * 2 ^ j)
            ≤ (c : ℚ) * ((s : ℚ) * 2 ^ j) := by
          rw [add_mul, one_div, inv_mul_cancel₀ (ne_of_gt hT)]
          exact hleq
        exact le_of_mul_le_mul_right this hT
      linarith

/-- The conversion `float64(n)` is exact for `0 < n < 2^53`. -/
theorem float64_exact (n : ℤ) (h0 : 0 < n) (hn : n < 2 ^ 53) :
    float64 n = .fin false (n : ℚ) := by
  unfold float64 F64.round
  rw [abs_of_pos h0, f64Round_intCast n (le_of_lt h0) hn, decide_eq_false (not_lt.mpr (le_of_lt h0))]

theorem F64_div_pos (x y : ℚ) (hy : y ≠ 0) :
    (F64.fin false x).div (.fin false y) = F64.round false (x / y) := by
  simp [F64.div, hy]

/-- The segment count from the two rounded quotients, when both inputs convert exactly. -/
theorem templateSegmentCount_of_round (d : ℚ) (dur ts : ℤ) (q r : ℚ) (c : ℤ)
    (hdur : float64 dur = .fin false (dur : ℚ)) (hts : float64 ts = .fin false (ts : ℚ))
    (hts0 : ts ≠ 0) (hq : f64Round ((dur : ℚ) / (ts : ℚ)) = some q) (hq0 : q ≠ 0)
    (hr : f64Round (d / q) = some r) (hc : ⌈r⌉ = c) (hc0 : 0 < c) (hc63 : c < 2 ^ 63) :
    templateSegmentCount (.fin false d) dur ts = .count c := by
  have htsq : (ts : ℚ) ≠ 0 := by exact_mod_cast hts0
  have hcq : (c : ℚ) ≠ 0 := by exact_mod_cast (ne_of_gt hc0)
  have hrange : -2 ^ 63 ≤ c ∧ c < 2 ^ 63 := ⟨by omega, hc63⟩
  unfold templateSegmentCount numberOfSegments
  rw [hdur, hts, F64_div_pos _ _ htsq]
  unfold F64.round
  rw [hq]
  dsimp only
  rw [F64_div_pos _ _ hq0]
  unfold F64.round
  rw [hr]
  simp only [Ceil, hc, F64.leZero, F64.toInt, Bool.false_or, decide_eq_true_eq, hcq,
    if_false, Int.floor_intCast, Bool.false_eq_true, hrange, and_self, if_true]

/-- C7 (as stated) fails: with total duration `D = 1` (a float64), segment duration 1 and
    timescale 49, the float64 quotient `1 / 49` is rounded down, `1 / fl(1/49)` rounds to
    `49 + 2^-47`, and the code's segment count is 50, while `ceil(D / (dur/ts)) = 49`. -/
theorem templateSegmentCount_ceil_counterexample :
    f64Round 1 = some 1 ∧
    templateSegmentCount (.fin false 1) 1 49 = .count 50 ∧
    ⌈(1 : ℚ) / (((1 : ℤ) : ℚ) / ((49 : ℤ) : ℚ))⌉ = 49 := by
  refine ⟨?_, ?_, ?_⟩
  · simpa using f64Round_intCast 1 (by norm_num) (by norm_num)
  · refine templateSegmentCount_of_round 1 1 49
      ((5882252574524729 : ℤ) * 2 ^ ((-6 : ℤ) - 52))
      ((6896136929411073 : ℤ) * 2 ^ ((5 : ℤ) - 52)) 50
      (float64_exact 1 (by norm_num) (by norm_num))
      (float64_exact 49 (by norm_num) (by norm_num)) (by norm_num) ?_ (by norm_num) ?_ ?_
      (by norm_num) (by norm_num)
    · exact f64Round_eval _ (-6) 5882252574524729 (by norm_num) (by norm_num) (by norm_num)
        (by rw [abs_lt]; constructor <;> norm_num) (by norm_num)
    · exact f64Round_eval _ 5 6896136929411073 (by norm_num) (by norm_num) (by norm_num)
        (by rw [abs_lt]; constructor <;> norm_num) (by norm_num)
    · rw [Int.ceil_eq_iff]
      constructor <;> norm_num
  · rw [Int.ceil_eq_iff]
    constructor <;> norm_num

/-- C7 (amended): for a total duration `D` that is a float64 with `2^-969 ≤ D < 2^53`, a
    segment duration `0 < dur < 2^53` and a timescale `0 < ts` that divides `dur`, the
    template-path segment count, after the conversion to `int`, is `ceil(D / (dur/ts))`. -/
theorem templateSegmentCount_ceil (d : ℚ) (dur ts : ℤ) (hrep : f64Round d = some d)
    (hlo : (2 : ℚ) ^ (-969 : ℤ) ≤ d) (hhi : d < 2 ^ 53) (hts : 0 < ts) (hdur : 0 < dur)
    (hdur53 : dur < 2 ^ 53) (hdvd : ts ∣ dur) :
    templateSegmentCount (.fin false d) dur ts = .count ⌈d / ((dur : ℚ) / (ts : ℚ))⌉ := by
  obtain ⟨s, rfl⟩ := hdvd
  have hs : 0 < s := pos_of_mul_pos_right hdur (le_of_lt hts)
  have hts53 : ts < 2 ^ 53 := by nlinarith
  have hs53 : s < 2 ^ 53 := by nlinarith
  have htsq : (ts : ℚ) ≠ 0 := by exact_mod_cast (ne_of_gt hts)
  have hsq : (s : ℚ) ≠ 0 := by exact_mod_cast (ne_of_gt hs)
  have hquot : ((ts * s : ℤ) : ℚ) / (ts : ℚ) = s := by
    push_cast
    field_simp
  obtain ⟨r, hr, hceil, hc0, hc53⟩ := ceil_f64Round_div d s hrep hlo hhi hs hs53
  rw [hquot]
  refine templateSegmentCount_of_round d (ts * s) ts s r _
    (float64_exact _ hdur hdur53) (float64_exact _ hts hts53) (ne_of_gt hts) ?_ hsq hr hceil
    hc0 (by omega)
  rw [hquot]
  exact f64Round_intCast s (le_of_lt hs) hs53

/-- C7 (amended), the examples of the specification: `D = 600`, `dur = 4`, `ts = 1`
    gives 150 segments and `D = 601` gives 151. -/
theorem templateSegmentCount_ceil_witness :
    templateSegmentCount (.fin false 600) 4 1 = .count 150 ∧
    templateSegmentCount (.fin false 601) 4 1 = .count 151 := by
  have h600 : f64Round 600 = some 600 := by
    simpa using f64Round_intCast 600 (by norm_num) (by norm_num)
  have h601 : f64Round 601 = some 601 := by
    simpa using f64Round_intCast 601 (by norm_num) (by norm_num)
  have c600 : ⌈(600 : ℚ) / (((4 : ℤ) : ℚ) / ((1 : ℤ) : ℚ))⌉ = 150 := by
    rw [Int.ceil_eq_iff]
    constructor <;> norm_num
  have c601 : ⌈(601 : ℚ) / (((4 : ℤ) : ℚ) / ((1 : ℤ) : ℚ))⌉ = 151 := by
    rw [Int.ceil_eq_iff]
    constructor <;> norm_num
  constructor
  · rw [← c600]
    exact templateSegmentCount_ceil 600 4 1 h600 (by norm_num) (by norm_num) (by norm_num)
      (by norm_num) (by norm_num) (by norm_num)
  · rw [← c601]
    exact templateSegmentCount_ceil 601 4 1 h601 (by norm_num) (by norm_num) (by norm_num)
      (by norm_num) (by norm_num) (by norm_num)

end Blurl
